import Mathlib

set_option maxRecDepth 100000

/-!
# Verification of the moodboard agent's normalization pipeline and harness

A shallow embedding of the `jatevo-moodboard-agent` repository:

* JavaScript `JSON.parse` / `JSON.stringify` are modelled by an executable
  fueled parser and serializer over an inductive `Json` type (decimal numbers
  are represented exactly as a mantissa/scale pair; Unicode strings as
  `List Char` of scalar values).
* The `analyzeMoodboard` handler's response-processing section (fence
  stripping, greedy brace match, parse, timestamp correction, and the returned
  record) is `analyzeMoodboardReturn`.
* The consistency harness `scripts/test-consistency.ts` is modelled by
  `runSingleTest` over a per-trial transport outcome oracle plus the aggregate
  counters and exit decision.
* The Jatevo client `callGLM46` is modelled over a fetch-outcome oracle; the
  timeout of the real code is an abort outcome of that oracle.
-/

namespace Moodboard

/-- JSON values as produced by JavaScript's `JSON.parse`.  A number is the
exact decimal `m / 10 ^ e`; object fields are kept in insertion order with
unique keys (as in a JavaScript object). -/
inductive Json where
  | null : Json
  | bool (b : Bool) : Json
  | num (m : Int) (e : Nat) : Json
  | str (s : List Char) : Json
  | arr (elems : List Json) : Json
  | obj (fields : List (List Char × Json)) : Json

mutual

/-- Decidable equality for `Json` (the derive handler does not support this
nested inductive). -/
def decEqJson : (a b : Json) → Decidable (a = b)
  | .null, .null => isTrue rfl
  | .null, .bool _ => isFalse (by simp)
  | .null, .num _ _ => isFalse (by simp)
  | .null, .str _ => isFalse (by simp)
  | .null, .arr _ => isFalse (by simp)
  | .null, .obj _ => isFalse (by simp)
  | .bool _, .null => isFalse (by simp)
  | .bool a, .bool b =>
    if h : a = b then isTrue (by rw [h]) else isFalse (by simp [h])
  | .bool _, .num _ _ => isFalse (by simp)
  | .bool _, .str _ => isFalse (by simp)
  | .bool _, .arr _ => isFalse (by simp)
  | .bool _, .obj _ => isFalse (by simp)
  | .num _ _, .null => isFalse (by simp)
  | .num _ _, .bool _ => isFalse (by simp)
  | .num m e, .num m' e' =>
    if h : m = m' ∧ e = e' then isTrue (by rw [h.1, h.2])
    else isFalse (by simp; intro hm he; exact h ⟨hm, he⟩)
  | .num _ _, .str _ => isFalse (by simp)
  | .num _ _, .arr _ => isFalse (by simp)
  | .num _ _, .obj _ => isFalse (by simp)
  | .str _, .null => isFalse (by simp)
  | .str _, .bool _ => isFalse (by simp)
  | .str _, .num _ _ => isFalse (by simp)
  | .str s, .str t =>
    if h : s = t then isTrue (by rw [h]) else isFalse (by simp [h])
  | .str _, .arr _ => isFalse (by simp)
  | .str _, .obj _ => isFalse (by simp)
  | .arr _, .null => isFalse (by simp)
  | .arr _, .bool _ => isFalse (by simp)
  | .arr _, .num _ _ => isFalse (by simp)
  | .arr _, .str _ => isFalse (by simp)
  | .arr xs, .arr ys =>
    match decEqJsonList xs ys with
    | isTrue h => isTrue (by rw [h])
    | isFalse h => isFalse (by simp [h])
  | .arr _, .obj _ => isFalse (by simp)
  | .obj _, .null => isFalse (by simp)
  | .obj _, .bool _ => isFalse (by simp)
  | .obj _, .num _ _ => isFalse (by simp)
  | .obj _, .str _ => isFalse (by simp)
  | .obj _, .arr _ => isFalse (by simp)
  | .obj fs, .obj gs =>
    match decEqJsonFields fs gs with
    | isTrue h => isTrue (by rw [h])
    | isFalse h => isFalse (by simp [h])

/-- Decidable equality for lists of JSON values. -/
def decEqJsonList : (a b : List Json) → Decidable (a = b)
  | [], [] => isTrue rfl
  | [], _ :: _ => isFalse (by simp)
  | _ :: _, [] => isFalse (by simp)
  | x :: xs, y :: ys =>
    match decEqJson x y with
    | isFalse h => isFalse (by simp [h])
    | isTrue h =>
      match decEqJsonList xs ys with
      | isTrue h2 => isTrue (by rw [h, h2])
      | isFalse h2 => isFalse (by simp [h2])

/-- Decidable equality for JSON object field lists. -/
def decEqJsonFields : (a b : List (List Char × Json)) → Decidable (a = b)
  | [], [] => isTrue rfl
  | [], _ :: _ => isFalse (by simp)
  | _ :: _, [] => isFalse (by simp)
  | (k, v) :: xs, (k', v') :: ys =>
    if hk : k = k' then
      match decEqJson v v' with
      | isFalse h => isFalse (by simp [h])
      | isTrue h =>
        match decEqJsonFields xs ys with
        | isTrue h2 => isTrue (by rw [hk, h, h2])
        | isFalse h2 => isFalse (by simp [h2])
    else isFalse (by simp [hk])

end

instance : DecidableEq Json := decEqJson

/-- The decimal digit character for `d < 10`. -/
def digitChar (d : Nat) : Char := Char.ofNat (48 + d)

/-- Fueled digit rendering; the fuel only forces structural recursion and
any `n < fuel` gives the digits of `n`, most significant first. -/
def natCharsAux : Nat → Nat → List Char
  | 0, _ => []
  | fuel + 1, n =>
    if n < 10 then [digitChar n]
    else natCharsAux fuel (n / 10) ++ [digitChar (n % 10)]

/-- Decimal digits of a natural number, most significant first (the model of
JavaScript's decimal rendering of a whole number). -/
def natChars (n : Nat) : List Char := natCharsAux (n + 1) n

/-- Decimal rendering of an integer. -/
def intChars (m : Int) : List Char :=
  if m < 0 then '-' :: natChars m.natAbs else natChars m.natAbs

/-- Decimal rendering of the exact number `m / 10 ^ e` (the model of
`JSON.stringify` on a number of our decimal representation). -/
def numChars (m : Int) (e : Nat) : List Char :=
  if e = 0 then intChars m
  else
    let n := m.natAbs
    let ipart := n / 10 ^ e
    let fdigits := natChars (n % 10 ^ e)
    let frac := List.replicate (e - fdigits.length) '0' ++ fdigits
    (if m < 0 then ['-'] else []) ++ natChars ipart ++ '.' :: frac

/-- Lower-case hexadecimal digit character for `d < 16`. -/
def hexChar (d : Nat) : Char :=
  if d < 10 then digitChar d else Char.ofNat (87 + d)

/-- `JSON.stringify` escaping of one string character. -/
def escapeChar (c : Char) : List Char :=
  if c = '"' then ['\\', '"']
  else if c = '\\' then ['\\', '\\']
  else if c = '\n' then ['\\', 'n']
  else if c = '\r' then ['\\', 'r']
  else if c = '\t' then ['\\', 't']
  else if c = '\x08' then ['\\', 'b']
  else if c = '\x0c' then ['\\', 'f']
  else if c.toNat < 32 then
    ['\\', 'u', '0', '0', hexChar (c.toNat / 16), hexChar (c.toNat % 16)]
  else [c]

/-- `JSON.stringify` escaping of a string body. -/
def escape (s : List Char) : List Char := s.flatMap escapeChar

/-- The keyword `null` as characters. -/
def nullChars : List Char := "null".toList

/-- The keyword `true` as characters. -/
def trueChars : List Char := "true".toList

/-- The keyword `false` as characters. -/
def falseChars : List Char := "false".toList

mutual

/-- The model of `JSON.stringify` (no indentation argument, as in the
source): renders a JSON value with no whitespace, fields in order. -/
def stringifyChars : Json → List Char
  | .null => nullChars
  | .bool true => trueChars
  | .bool false => falseChars
  | .num m e => numChars m e
  | .str s => '"' :: (escape s ++ ['"'])
  | .arr xs => '[' :: (stringifyElems xs ++ [']'])
  | .obj fs => '{' :: (stringifyFields fs ++ ['}'])

/-- Comma-separated rendering of array elements. -/
def stringifyElems : List Json → List Char
  | [] => []
  | [x] => stringifyChars x
  | x :: y :: xs => stringifyChars x ++ ',' :: stringifyElems (y :: xs)

/-- Comma-separated rendering of object fields. -/
def stringifyFields : List (List Char × Json) → List Char
  | [] => []
  | [(k, v)] => '"' :: (escape k ++ '"' :: ':' :: stringifyChars v)
  | (k, v) :: g :: fs =>
    '"' :: (escape k ++ '"' :: ':' :: stringifyChars v)
      ++ ',' :: stringifyFields (g :: fs)

end

/-- JSON-grammar whitespace (RFC 8259: space, tab, line feed, carriage
return), used by `JSON.parse` between tokens. -/
def isJsonWs (c : Char) : Bool :=
  c = ' ' || c = '\t' || c = '\n' || c = '\r'

/-- Drop leading JSON whitespace. -/
def skipWs (cs : List Char) : List Char := cs.dropWhile isJsonWs

/-- Decimal digit test. -/
def isDigitCh (c : Char) : Bool := '0' ≤ c && c ≤ '9'

/-- Numeric value of a hexadecimal digit character. -/
def hexVal (c : Char) : Option Nat :=
  if '0' ≤ c ∧ c ≤ '9' then some (c.toNat - 48)
  else if 'a' ≤ c ∧ c ≤ 'f' then some (c.toNat - 87)
  else if 'A' ≤ c ∧ c ≤ 'F' then some (c.toNat - 55)
  else none

/-- Decode a single-character JSON string escape (`\u` is handled
separately). -/
def unescapeChar (e : Char) : Option Char :=
  if e = '"' then some '"'
  else if e = '\\' then some '\\'
  else if e = '/' then some '/'
  else if e = 'n' then some '\n'
  else if e = 'r' then some '\r'
  else if e = 't' then some '\t'
  else if e = 'b' then some '\x08'
  else if e = 'f' then some '\x0c'
  else none

/-- Parse the body of a JSON string literal after the opening quote,
returning the decoded characters and the input after the closing quote.
Raw control characters are rejected, escapes are decoded, as in
`JSON.parse`. -/
def parseStringBody : List Char → Option (List Char × List Char)
  | [] => none
  | c :: rest =>
    if c = '"' then some ([], rest)
    else if c = '\\' then
      match rest with
      | [] => none
      | e :: rest1 =>
        if e = 'u' then
          match rest1 with
          | h1 :: h2 :: h3 :: h4 :: rest2 =>
            match hexVal h1, hexVal h2, hexVal h3, hexVal h4 with
            | some a, some b, some c', some d =>
              (parseStringBody rest2).map
                (fun p => (Char.ofNat (((a * 16 + b) * 16 + c') * 16 + d) :: p.1, p.2))
            | _, _, _, _ => none
          | _ => none
        else
          match unescapeChar e with
          | some c' => (parseStringBody rest1).map (fun p => (c' :: p.1, p.2))
          | none => none
    else if c.toNat < 32 then none
    else (parseStringBody rest).map (fun p => (c :: p.1, p.2))

/-- Numeric value of a run of decimal digit characters. -/
def digitsToNat (ds : List Char) : Nat :=
  ds.foldl (fun a c => a * 10 + (c.toNat - 48)) 0

/-- Apply an optional leading minus sign. -/
def applySign (neg : Bool) (m : Int) : Int := if neg then -m else m

/-- Parse the digits of a JSON exponent after the `e`/`E` marker and
assemble the final decimal number from the pre-exponent mantissa `mAbs`
and scale `e`. -/
def parseExpDigits (neg : Bool) (mAbs : Int) (e : Nat) (cs : List Char) :
    Option (Json × List Char) :=
  let (esNeg, r) :=
    match cs with
    | [] => (false, cs)
    | c :: t =>
      if c = '+' then (false, t)
      else if c = '-' then (true, t)
      else (false, cs)
  let ds := r.takeWhile isDigitCh
  if ds.isEmpty then none
  else
    let ev := digitsToNat ds
    let rest := r.dropWhile isDigitCh
    if esNeg then some (.num (applySign neg mAbs) (e + ev), rest)
    else if e ≤ ev then
      some (.num (applySign neg mAbs * (10 : Int) ^ (ev - e)) 0, rest)
    else some (.num (applySign neg mAbs) (e - ev), rest)

/-- Parse an optional JSON exponent part and assemble the final decimal
number from the pre-exponent mantissa `mAbs` and scale `e`. -/
def parseExpPart (neg : Bool) (mAbs : Int) (e : Nat) (cs : List Char) :
    Option (Json × List Char) :=
  match cs with
  | [] => some (.num (applySign neg mAbs) e, cs)
  | c :: rest =>
    if c = 'e' ∨ c = 'E' then parseExpDigits neg mAbs e rest
    else some (.num (applySign neg mAbs) e, cs)

/-- Parse the unsigned part of a JSON number token, after an optional
minus sign has been consumed: an integer part without leading zeros, an
optional fraction, an optional exponent. -/
def parseUnsignedNumber (neg : Bool) (cs1 : List Char) :
    Option (Json × List Char) :=
  match cs1 with
  | [] => none
  | c :: _ =>
    if ¬ isDigitCh c then none
    else
      let ds := cs1.takeWhile isDigitCh
      let r1 := cs1.dropWhile isDigitCh
      if 1 < ds.length ∧ ds.head? = some '0' then none
      else
        let ip := digitsToNat ds
        match r1 with
        | [] => parseExpPart neg (ip : Int) 0 r1
        | c1 :: r2 =>
          if c1 = '.' then
            let fs := r2.takeWhile isDigitCh
            if fs.isEmpty then none
            else
              let r3 := r2.dropWhile isDigitCh
              let fp := digitsToNat fs
              let e := fs.length
              parseExpPart neg ((ip * 10 ^ e + fp : Nat) : Int) e r3
          else parseExpPart neg (ip : Int) 0 r1

/-- Parse a JSON number token (the JSON grammar: optional minus, integer
part without leading zeros, optional fraction, optional exponent). -/
def parseNumber (cs : List Char) : Option (Json × List Char) :=
  match cs with
  | [] => none
  | c :: t =>
    if c = '-' then parseUnsignedNumber true t
    else parseUnsignedNumber false cs

/-- The next character (if any) cannot extend a number token: not a digit,
not a decimal point, not an exponent marker. -/
def numSafe : List Char → Bool
  | [] => true
  | c :: _ => !(isDigitCh c) && c ≠ '.' && c ≠ 'e' && c ≠ 'E'

/-- The head of the list (if any) fails the predicate. -/
def headNot (p : Char → Bool) : List Char → Prop
  | [] => True
  | c :: _ => p c = false

/-- Insert a field into a JavaScript object: replace the value in place when
the key is already present (as assignment and duplicate JSON keys do),
otherwise append. -/
def objInsert (fs : List (List Char × Json)) (k : List Char) (v : Json) :
    List (List Char × Json) :=
  if fs.any (fun p => p.1 = k) then
    fs.map (fun p => if p.1 = k then (k, v) else p)
  else fs ++ [(k, v)]

/-- Require the literal characters `lit` at the head of the input and
return what follows. -/
def stripChars : List Char → List Char → Option (List Char)
  | [], cs => some cs
  | _ :: _, [] => none
  | l :: ls, c :: rest => if c = l then stripChars ls rest else none

mutual

/-- Fueled model of `JSON.parse` on a value: returns the parsed value and
the remaining input.  Fuel is decremented at each recursive step; the
top-level wrapper supplies enough fuel for any input. -/
def parseValue : Nat → List Char → Option (Json × List Char)
  | 0, _ => none
  | fuel + 1, cs =>
    match skipWs cs with
    | [] => none
    | c :: cs1 =>
      if c = 'n' then
        match stripChars ['u', 'l', 'l'] cs1 with
        | some rest => some (.null, rest)
        | none => none
      else if c = 't' then
        match stripChars ['r', 'u', 'e'] cs1 with
        | some rest => some (.bool true, rest)
        | none => none
      else if c = 'f' then
        match stripChars ['a', 'l', 's', 'e'] cs1 with
        | some rest => some (.bool false, rest)
        | none => none
      else if c = '"' then (parseStringBody cs1).map (fun p => (.str p.1, p.2))
      else if c = '[' then
        match skipWs cs1 with
        | [] => none
        | c1 :: rest1 =>
          if c1 = ']' then some (.arr [], rest1)
          else parseElems fuel (c1 :: rest1) []
      else if c = '{' then
        match skipWs cs1 with
        | [] => none
        | c1 :: rest1 =>
          if c1 = '}' then some (.obj [], rest1)
          else parseFields fuel (c1 :: rest1) []
      else parseNumber (c :: cs1)

/-- Parse the remaining elements of a non-empty JSON array. -/
def parseElems : Nat → List Char → List Json → Option (Json × List Char)
  | 0, _, _ => none
  | fuel + 1, cs, acc =>
    match parseValue fuel cs with
    | none => none
    | some (v, rest) =>
      match skipWs rest with
      | [] => none
      | c :: rest1 =>
        if c = ',' then parseElems fuel rest1 (acc ++ [v])
        else if c = ']' then some (.arr (acc ++ [v]), rest1)
        else none

/-- Parse the remaining fields of a non-empty JSON object. -/
def parseFields : Nat → List Char → List (List Char × Json) →
    Option (Json × List Char)
  | 0, _, _ => none
  | fuel + 1, cs, acc =>
    match skipWs cs with
    | [] => none
    | c :: rest =>
      if c = '"' then
        match parseStringBody rest with
        | none => none
        | some (k, rest1) =>
          match skipWs rest1 with
          | [] => none
          | c1 :: rest2 =>
            if c1 = ':' then
              match parseValue fuel rest2 with
              | none => none
              | some (v, rest3) =>
                match skipWs rest3 with
                | [] => none
                | c2 :: rest4 =>
                  if c2 = ',' then parseFields fuel rest4 (objInsert acc k v)
                  else if c2 = '}' then some (.obj (objInsert acc k v), rest4)
                  else none
            else none
      else none

end

mutual

/-- Fuel adequate for parsing one serialized value (each parser step
consumes one unit). -/
def jcost : Json → Nat
  | .null => 1
  | .bool _ => 1
  | .num _ _ => 1
  | .str _ => 1
  | .arr xs => 2 + ecost xs
  | .obj fs => 2 + fcost fs

/-- Fuel adequate for the element loop of a serialized array. -/
def ecost : List Json → Nat
  | [] => 0
  | x :: xs => 1 + jcost x + ecost xs

/-- Fuel adequate for the field loop of a serialized object. -/
def fcost : List (List Char × Json) → Nat
  | [] => 0
  | (_, v) :: fs => 1 + jcost v + fcost fs

end

/-- The model of `JSON.parse`: parse one value and require only whitespace
to remain.  `none` models a thrown `SyntaxError`. -/
def jsonParse (cs : List Char) : Option Json :=
  match parseValue (2 * cs.length + 2) cs with
  | some (v, rest) => if skipWs rest = [] then some v else none
  | none => none

/-- JavaScript regex `\s` / `String.trim` whitespace (the ASCII part plus
no-break space; the further Unicode space characters never occur in the
inputs considered here). -/
def isJsWsCh (c : Char) : Bool :=
  c = ' ' || c = '\t' || c = '\n' || c = '\r' || c = '\x0b' || c = '\x0c' ||
    c = Char.ofNat 160

/-- The backquote (code-fence) character. -/
def backquote : Char := Char.ofNat 96

/-- The text matched by the opening fence tag regex, `"` ++ "``json" ++ `"`. -/
def fenceJson : List Char := [backquote, backquote, backquote, 'j', 's', 'o', 'n']

/-- The text matched by the bare fence tag regex, three backquotes. -/
def fencePlain : List Char := [backquote, backquote, backquote]

/-- Fueled scan for `stripTag`; the fuel only forces structural recursion
and any `cs.length ≤ fuel` gives the full scan. -/
def stripTagAux (tag : List Char) : Nat → List Char → List Char
  | 0, cs => cs
  | fuel + 1, cs =>
    if tag.isPrefixOf cs ∧ tag ≠ [] then
      stripTagAux tag fuel ((cs.drop tag.length).dropWhile isJsWsCh)
    else
      match cs with
      | [] => []
      | c :: rest => c :: stripTagAux tag fuel rest

/-- Model of `text.replace(/TAG\s*/g, "")` for a literal tag: scan left to
right; at a position where the tag occurs, drop it together with the
following whitespace run and continue after it, otherwise keep the
character. -/
def stripTag (tag : List Char) (cs : List Char) : List Char :=
  stripTagAux tag cs.length cs

/-- Model of JavaScript `String.trim`. -/
def trimChars (cs : List Char) : List Char :=
  ((cs.dropWhile isJsWsCh).reverse.dropWhile isJsWsCh).reverse

/-- Handler lines 137-140: strip ```json fences, bare ``` fences, and trim. -/
def cleanText (response : List Char) : List Char :=
  trimChars (stripTag fencePlain (stripTag fenceJson response))

/-- A reply wrapped in a markdown code fence, as a model often produces:
the opening ```json tag, a newline, the body, a newline, the closing
``` tag. -/
def wrapFenced (body : List Char) : List Char :=
  fenceJson ++ '\n' :: (body ++ '\n' :: fencePlain)

/-- Index of the first occurrence of a character. -/
def firstIdxOf (c : Char) : List Char → Option Nat
  | [] => none
  | x :: xs => if x = c then some 0 else (firstIdxOf c xs).map (· + 1)

/-- Index of the last occurrence of a character. -/
def lastIdxOf (c : Char) : List Char → Option Nat
  | [] => none
  | x :: xs =>
    match lastIdxOf c xs with
    | some k => some (k + 1)
    | none => if x = c then some 0 else none

/-- Model of `cleaned.match(/\x7b[\s\S]*\x7d/)` (handler line 142): the
leftmost, greedy match of that regex runs from the first opening brace to
the last closing brace of the text, and there is no match when no closing
brace follows any opening brace. -/
def jsonMatch (cs : List Char) : Option (List Char) :=
  match firstIdxOf '{' cs, lastIdxOf '}' cs with
  | some i, some j =>
    if i < j then some ((cs.drop i).take (j + 1 - i)) else none
  | _, _ => none

/-- JavaScript property read `j[k]` on a parsed JSON value: a defined value
only when `j` is an object with field `k` (`none` models `undefined`). -/
def objGet (j : Json) (k : List Char) : Option Json :=
  match j with
  | .obj fs => (fs.find? (fun p => p.1 = k)).map (fun p => p.2)
  | _ => none

/-- JavaScript truthiness of a possibly-undefined parsed JSON value. -/
def jsTruthy : Option Json → Bool
  | none => false
  | some .null => false
  | some (.bool b) => b
  | some (.num m _) => decide (m ≠ 0)
  | some (.str s) => !s.isEmpty
  | some (.arr _) => true
  | some (.obj _) => true

/-- The `"date"` property key. -/
def dateKey : List Char := "date".toList

/-- The `"analyzed_at"` property key. -/
def analyzedAtKey : List Char := "analyzed_at".toList

/-- Handler lines 146-153: overwrite the `date` and `analyzed_at`
properties of the parsed object with the caller-side timestamps, each only
when the model-supplied value is truthy. -/
def fixDates (j : Json) (currentDate currentTimestamp : List Char) : Json :=
  match j with
  | .obj fs =>
    let fs1 :=
      if jsTruthy (objGet (.obj fs) dateKey) then
        objInsert fs dateKey (.str currentDate)
      else fs
    let fs2 :=
      if jsTruthy (objGet (.obj fs1) analyzedAtKey) then
        objInsert fs1 analyzedAtKey (.str currentTimestamp)
      else fs1
    .obj fs2
  | j => j

/-- The caller-side authoritative timestamps computed at handler lines
86-87 before the inference call. -/
structure Timestamps where
  currentDate : List Char
  currentTimestamp : List Char
deriving DecidableEq

/-- The `output` record returned by the handler (lines 162-170). -/
structure MoodboardOutputRecord where
  date : List Char
  analyzed_at : List Char
  raw_response : List Char
  corrected_response : List Char
  parsed_data : Option Json
  model_used : List Char
  analysis_duration_ms : Nat
deriving DecidableEq

/-- The full handler return value (lines 161-173). -/
structure HandlerReturn where
  output : MoodboardOutputRecord
  model : List Char
  raw : Bool
deriving DecidableEq

/-- Handler lines 131-159: the parse-and-correct step.  `none` models the
caught parse failure (no brace-delimited span, or `JSON.parse` threw),
leaving `parsedResponse = null`. -/
def normalizeParse (response : List Char) (ts : Timestamps) : Option Json :=
  match jsonMatch (cleanText response) with
  | some span =>
    (jsonParse span).map (fun j => fixDates j ts.currentDate ts.currentTimestamp)
  | none => none

/-- Handler lines 131-173: the whole response-normalization step, a pure
function of the raw reply, the caller-side timestamps, the configured model
name and the measured duration.  Every path yields a well-formed return
value (the source wraps the parse in try/catch), so the function is total
by construction. -/
def analyzeMoodboardReturn (response : List Char) (ts : Timestamps)
    (modelName : List Char) (durationMs : Nat) : HandlerReturn :=
  let parsed? := normalizeParse response ts
  { output :=
    { date := ts.currentDate
      analyzed_at := ts.currentTimestamp
      raw_response := response
      corrected_response :=
        match parsed? with
        | some p => stringifyChars p
        | none => response
      parsed_data := parsed?
      model_used := modelName
      analysis_duration_ms := durationMs }
    model := modelName
    raw := true }

/-- A market record fetched from CoinGecko; only its presence matters to
the handler's control flow (the prompt built from it feeds the opaque
inference collaborator). -/
structure Coin where
  symbol : List Char
deriving DecidableEq

/-- The handler's catch block (lines 174-181): wrap any thrown message. -/
def analysisFailedMsg (msg : List Char) : List Char :=
  "Moodboard analysis failed: ".toList ++ msg

/-- The message thrown at line 73 when no coin data arrives. -/
def noCoinDataMsg : List Char := "No coin data received from CoinGecko".toList

/-- The full `analyzeMoodboard` handler over oracles for its two external
collaborators (CoinGecko fetch and Jatevo inference, both opaque
prompt-to-data functions per the spec's interface boundary): an `Except` is
a thrown error, and every throw is wrapped by the catch block. -/
def analyzeMoodboardHandler (coins : Except (List Char) (List Coin))
    (inference : Except (List Char) (List Char)) (ts : Timestamps)
    (modelName : List Char) (durationMs : Nat) :
    Except (List Char) HandlerReturn :=
  match coins with
  | .error e => .error (analysisFailedMsg e)
  | .ok cs =>
    if cs.isEmpty then .error (analysisFailedMsg noCoinDataMsg)
    else
      match inference with
      | .error e => .error (analysisFailedMsg e)
      | .ok response => .ok (analyzeMoodboardReturn response ts modelName durationMs)

/-- Exact rational value of the decimal number `m / 10 ^ e`. -/
def numVal (m : Int) (e : Nat) : ℚ := (m : ℚ) / 10 ^ e

/-- Executable test for `lo ≤ m / 10 ^ e ≤ hi` by cross-multiplication
(rational arithmetic does not evaluate inside the kernel; this integer
form does, and `numInRange_iff` ties it to the rational statement). -/
def numInRange (lo hi m : Int) (e : Nat) : Bool :=
  lo * (10 : Int) ^ e ≤ m ∧ m ≤ hi * (10 : Int) ^ e

/-- Read a string-valued property. -/
def getStr? (j : Json) (k : List Char) : Option (List Char) :=
  match objGet j k with
  | some (.str s) => some s
  | _ => none

/-- `coinMoodSchema` of `outputSchema.ts`: nonempty `symbol`, `mood` and
`narrative` strings, a `score` number in `[0,1]`, optional numeric
`price_change_24h` and `market_cap_rank`. -/
def coinConforms (j : Json) : Bool :=
  (match getStr? j ("symbol".toList) with
   | some s => !s.isEmpty
   | none => false) &&
  (match getStr? j ("mood".toList) with
   | some s => !s.isEmpty
   | none => false) &&
  (match getStr? j ("narrative".toList) with
   | some s => !s.isEmpty
   | none => false) &&
  (match objGet j ("score".toList) with
   | some (.num m e) => numInRange 0 1 m e
   | _ => false) &&
  (match objGet j ("price_change_24h".toList) with
   | some (.num _ _) => true
   | none => true
   | _ => false) &&
  (match objGet j ("market_cap_rank".toList) with
   | some (.num _ _) => true
   | none => true
   | _ => false)

/-- `moodboardOutputSchema` of `outputSchema.ts`: a `date` string, a
nonempty `coins` array of conforming coin records, an optional
`market_sentiment` string and an `analyzed_at` string (unknown keys are
accepted, as by a non-strict zod object). -/
def moodboardConforms (j : Json) : Bool :=
  (match getStr? j dateKey with
   | some _ => true
   | none => false) &&
  (match objGet j ("coins".toList) with
   | some (.arr xs) => !xs.isEmpty && xs.all coinConforms
   | _ => false) &&
  (match objGet j ("market_sentiment".toList) with
   | some (.str _) => true
   | none => true
   | _ => false) &&
  (match getStr? j analyzedAtKey with
   | some _ => true
   | none => false)

/-- A concrete coin record conforming to `coinMoodSchema`. -/
def coinBTC : Json :=
  .obj [("symbol".toList, .str ("BTC".toList)),
    ("mood".toList, .str ("up".toList)),
    ("narrative".toList, .str ("rally".toList)),
    ("score".toList, .num 8 1)]

/-- A concrete object conforming to `moodboardOutputSchema`, carrying its
own (pre-invocation) timestamps. -/
def sampleMoodboard : Json :=
  .obj [(dateKey, .str ("2020-01-01".toList)),
    ("coins".toList, .arr [coinBTC]),
    (analyzedAtKey, .str ("2020-01-01T00:00:00Z".toList))]

/-- Concrete caller-side timestamps used by the concrete instances. -/
def tsX : Timestamps :=
  ⟨"2026-10-11".toList, "2026-10-11T00:00:00.000Z".toList⟩

/-- A raw reply whose parsed object carries `date` and `analyzed_at`
fields holding empty strings (a falsy model-supplied value). -/
def emptyDatesBody : List Char :=
  "\x7b\"date\":\"\",\"analyzed_at\":\"\"\x7d".toList

/-- Key uniqueness of one field list (JavaScript objects cannot carry a
duplicate key). -/
def distinctKeys : List (List Char × Json) → Bool
  | [] => true
  | (k, _) :: rest => !(rest.any (fun p => p.1 = k)) && distinctKeys rest

mutual

/-- A JSON value that denotes a JavaScript object tree: all object field
lists have pairwise distinct keys. -/
def jsWF : Json → Bool
  | .arr xs => jsWFList xs
  | .obj fs => distinctKeys fs && jsWFFields fs
  | _ => true

/-- `jsWF` on every element. -/
def jsWFList : List Json → Bool
  | [] => true
  | x :: xs => jsWF x && jsWFList xs

/-- `jsWF` on every field value. -/
def jsWFFields : List (List Char × Json) → Bool
  | [] => true
  | (_, v) :: fs => jsWF v && jsWFFields fs

end

/-! ## The consistency harness (`scripts/test-consistency.ts`) -/

/-- One recorded trial (the `TestResult` interface, lines 26-34).  `none`
in an `Option` field models a JavaScript `undefined` left unset. -/
structure TrialResult where
  attempt : Nat
  success : Bool
  status : Nat
  hasRawResponse : Option Bool
  validated : Option Bool
  responseTime : Nat
  error : Option (List Char)
deriving DecidableEq

/-- The transport-level course of one trial, as decided by the network and
the service: either some step of the trial threw (network failure, payment
signing failure), or the two requests completed with the given statuses,
the paid response's body text, and the measured elapsed time. -/
inductive TrialOutcome where
  | threw (msg : List Char) (elapsed : Nat)
  | completed (initialStatus : Nat) (paidStatus : Nat)
      (paidBodyText : List Char) (elapsed : Nat)

/-- JavaScript `Response.ok`: status in the 200-299 range. -/
def httpOk (status : Nat) : Bool := 200 ≤ status && status ≤ 299

/-- `paidBody.output?.raw_response !== undefined` (line 120): the `output`
property holds an object with a `raw_response` field. -/
def outputHasRawResponse (body : Json) : Bool :=
  match objGet body ("output".toList) with
  | some o => (objGet o ("raw_response".toList)).isSome
  | none => false

/-- `paidBody.error?.message || "Request failed"` (line 115); the display
of a non-string `message` value is collapsed to the fallback. -/
def paidErrorMsg (body : Json) : List Char :=
  match objGet body ("error".toList) with
  | some e =>
    match objGet e ("message".toList) with
    | some (.str s) => if s.isEmpty then "Request failed".toList else s
    | _ => "Request failed".toList
  | none => "Request failed".toList

/-- The error recorded when the unauthenticated request does not return
402 (line 68). -/
def expected402Msg (status : Nat) : List Char :=
  "Expected 402, got ".toList ++ natChars status

/-- `runSingleTest` (lines 39-140) over the trial's transport outcome:
challenge must be 402, the paid response body must parse as JSON and the
status must be a success; then the raw/validated flags are derived from the
body. -/
def runSingleTest (attempt : Nat) (o : TrialOutcome) : TrialResult :=
  match o with
  | .threw msg t =>
    { attempt := attempt, success := false, status := 0, hasRawResponse := none,
      validated := none, responseTime := t, error := some msg }
  | .completed initStatus paidStatus body t =>
    if initStatus ≠ 402 then
      { attempt := attempt, success := false, status := initStatus,
        hasRawResponse := none, validated := none, responseTime := t,
        error := some (expected402Msg initStatus) }
    else
      match jsonParse body with
      | none =>
        { attempt := attempt, success := false, status := paidStatus,
          hasRawResponse := none, validated := none, responseTime := t,
          error := some ("Failed to parse response as JSON".toList) }
      | some paidBody =>
        if ¬ httpOk paidStatus then
          { attempt := attempt, success := false, status := paidStatus,
            hasRawResponse := none, validated := none, responseTime := t,
            error := some (paidErrorMsg paidBody) }
        else
          let hasRaw := (objGet paidBody ("raw".toList) == some (.bool true))
            || outputHasRawResponse paidBody
          let isValidated :=
            !hasRaw && !(objGet paidBody ("validated".toList) == some (.bool false))
          { attempt := attempt, success := true, status := 200,
            hasRawResponse := some hasRaw, validated := some isValidated,
            responseTime := t, error := none }

/-- The five sequential trials of `runConsistencyTest` (lines 151-172),
each over its own transport outcome. -/
def runHarness (outs : List TrialOutcome) : List TrialResult :=
  outs.mapIdx (fun i o => runSingleTest (i + 1) o)

/-- `successCount` (line 179). -/
def successCount (rs : List TrialResult) : Nat :=
  (rs.filter (fun r => r.success)).length

/-- `validatedCount` (line 180): successful trials whose `validated` flag
is not `false` (an unset flag counts). -/
def validatedCount (rs : List TrialResult) : Nat :=
  (rs.filter (fun r => r.success && !(r.validated == some false))).length

/-- `rawResponseCount` (line 181): trials whose `hasRawResponse` flag is
truthy. -/
def rawResponseCount (rs : List TrialResult) : Nat :=
  (rs.filter (fun r => r.hasRawResponse == some true)).length

/-- The numerator of `avgResponseTime` (lines 182-185): the response times
of ALL trials with positive time, failed ones included. -/
def positiveTimeSum (rs : List TrialResult) : Nat :=
  ((rs.filter (fun r => 0 < r.responseTime)).map (fun r => r.responseTime)).sum

/-- `avgResponseTime` (lines 182-185): that sum divided by the number of
successful trials.  (`x / 0 || 0` yields `0` in the source when the sum is
also `0`; rational division by zero is `0`, so the `|| 0` fallback is
absorbed.  The JavaScript `Infinity` produced when the sum is positive and
no trial succeeded has no rational counterpart; no statement here divides
by zero.) -/
def avgResponseTime (rs : List TrialResult) : ℚ :=
  (positiveTimeSum rs : ℚ) / (successCount rs : ℚ)

/-- The success rate printed at line 187 (out of the hard-coded 5). -/
def successRate (rs : List TrialResult) : ℚ := (successCount rs : ℚ) / 5

/-- The validated rate printed at line 188 (out of the hard-coded 5). -/
def validatedRate (rs : List TrialResult) : ℚ := (validatedCount rs : ℚ) / 5

/-- The harness exit decision (lines 205-215): `0` only when all 5 trials
succeeded AND all 5 validated; every other summary exits `1`. -/
def harnessExitCode (rs : List TrialResult) : Nat :=
  if successCount rs = 5 ∧ validatedCount rs = 5 then 0
  else if successCount rs = 5 ∧ 0 < rawResponseCount rs then 1
  else 1

/-! ## The Jatevo client (`src/services/jatevoClient.ts`) -/

/-- What the wrapped `fetch` of `callGLM46` did: hit the 60-second abort,
reject with a network error, or deliver a response with a status and a body
text. -/
inductive FetchOutcome where
  | timedOut
  | netError (msg : List Char)
  | response (status : Nat) (body : List Char)

/-- The fixed inference timeout (line 105): 60000 milliseconds. -/
def jatevoTimeoutMs : Nat := 60000

/-- The rejection message of a fetch aborted by its `AbortController`. -/
def abortedMsg : List Char := "The operation was aborted.".toList

/-- The wrapper applied by the catch block at lines 159-164 to every error
escaping the call. -/
def failedCallMsg (modelName msg : List Char) : List Char :=
  "Failed to call ".toList ++ modelName ++ ": ".toList ++ msg

/-- The unwrapped error thrown before the request when the key is missing
(lines 71-73). -/
def keyRequiredMsg : List Char := "JATEVO_API_KEY is required".toList

/-- `"error" in data` (line 135) for a parsed JSON body (for a primitive
body the JavaScript `in` operator throws instead; that run also ends in a
wrapped error). -/
def hasErrorKey (j : Json) : Bool :=
  match j with
  | .obj fs => fs.any (fun p => p.1 = "error".toList)
  | _ => false

/-- Abbreviated display of the interpolated error fields of lines 136-139;
no statement inspects this text. -/
def jsDisplay (v : Option Json) : List Char :=
  match v with
  | none => "undefined".toList
  | some .null => "null".toList
  | some (.bool true) => "true".toList
  | some (.bool false) => "false".toList
  | some (.num m e) => numChars m e
  | some (.str s) => s
  | some (.arr _) => "[array]".toList
  | some (.obj _) => "[object]".toList

/-- The `Jatevo API error: ...` message of lines 136-139. -/
def apiErrorInner (data : Json) : List Char :=
  match objGet data ("error".toList) with
  | some e =>
    "Jatevo API error: ".toList ++ jsDisplay (objGet e ("message".toList))
      ++ " (Code: ".toList ++ jsDisplay (objGet e ("code".toList))
      ++ ", Type: ".toList ++ jsDisplay (objGet e ("type".toList)) ++ ")".toList
  | none => "TypeError: cannot read properties of undefined".toList

/-- The `No response from ...` message of line 145. -/
def noResponseMsg (modelName : List Char) : List Char :=
  "No response from ".toList ++ modelName ++ " model".toList

/-- Abbreviated runtime TypeError raised by the property reads of lines
144-150 on an ill-shaped body; it is caught and wrapped like every other
error. -/
def typeErrorMsg : List Char :=
  "TypeError: cannot read properties of undefined".toList

/-- A `choices[0].message.content` value that is not a string; the source's
untyped code would return it as-is and the handler's string operations
would then throw.  The model surfaces the failure here; no statement
depends on this case. -/
def nonStringContentMsg : List Char := "content is not a string".toList

/-- `callGLM46` (lines 65-165) over the fetch outcome: empty key throws
unwrapped before the request; an abort, a network rejection, an unparsable
body, a non-ok or error-carrying body, or missing choices all end in a
wrapped error; only a string `choices[0].message.content` of an ok body is
returned.  A timed-out call therefore never yields a reply. -/
def callGLM46Model (apiKey modelName : List Char) (f : FetchOutcome) :
    Except (List Char) (List Char) :=
  if apiKey.isEmpty then .error keyRequiredMsg
  else
    match f with
    | .timedOut => .error (failedCallMsg modelName abortedMsg)
    | .netError msg => .error (failedCallMsg modelName msg)
    | .response status body =>
      match jsonParse body with
      | none =>
        .error (failedCallMsg modelName
          ("Failed to parse Jatevo API response as JSON".toList))
      | some data =>
        if ¬ httpOk status || hasErrorKey data then
          .error (failedCallMsg modelName (apiErrorInner data))
        else
          match objGet data ("choices".toList) with
          | some (.arr (c :: _)) =>
            (match objGet c ("message".toList) with
             | some msg =>
               (match objGet msg ("content".toList) with
                | some (.str s) => .ok s
                | some _ => .error (failedCallMsg modelName nonStringContentMsg)
                | none => .error (failedCallMsg modelName typeErrorMsg))
             | none => .error (failedCallMsg modelName typeErrorMsg))
          | some (.arr []) => .error (failedCallMsg modelName (noResponseMsg modelName))
          | other =>
            if jsTruthy other then .error (failedCallMsg modelName typeErrorMsg)
            else .error (failedCallMsg modelName (noResponseMsg modelName))

/-! ## The entrypoint input schema (`index.ts` lines 49-62) -/

/-- The `limit` field of the zod input schema:
`z.number().min(1).max(50).optional().default(10)` — absent defaults to 10,
a number is accepted exactly when its value lies in `[1, 50]`, any
non-number is rejected. -/
def validateLimit (v : Option Json) : Option Json :=
  match v with
  | none => some (.num 10 0)
  | some (.num m e) =>
    if numInRange 1 50 m e then some (.num m e) else none
  | some _ => none

/-- The `vs_currency` field: `z.string().optional().default("usd")`. -/
def validateCurrency (v : Option Json) : Option (List Char) :=
  match v with
  | none => some ("usd".toList)
  | some (.str s) => some s
  | some _ => none

/-- The whole input schema: an object whose `limit` and `vs_currency`
fields validate. -/
def validateInput (input : Json) : Option (Json × List Char) :=
  match input with
  | .obj _ =>
    match validateLimit (objGet input ("limit".toList)),
        validateCurrency (objGet input ("vs_currency".toList)) with
    | some l, some c => some (l, c)
    | _, _ => none
  | _ => none

/-- The two billable upstream calls the handler can make. -/
inductive PaidWork where
  | fetchCoins
  | inference
deriving DecidableEq

/-- The paid-response body the always-raw handler serves (every return of
the handler carries `raw: true`). -/
def rawTrialBody : List Char := "\x7b\"raw\":true\x7d".toList

/-- A harness run whose five trials all complete with a 402 challenge then
a 200 paid response carrying a raw body. -/
def rawRunOutcomes : List TrialOutcome :=
  List.replicate 5 (.completed 402 200 rawTrialBody 100)

/-- A 5-trial summary with four successful 100 ms trials and one failed
trial that still recorded 50 ms. -/
def mixedTrialResults : List TrialResult :=
  [⟨1, true, 200, some false, some true, 100, none⟩,
   ⟨2, true, 200, some false, some true, 100, none⟩,
   ⟨3, true, 200, some false, some true, 100, none⟩,
   ⟨4, true, 200, some false, some true, 100, none⟩,
   ⟨5, false, 0, none, none, 50, some ("net".toList)⟩]

/-- The mean latency the spec describes: the arithmetic mean of the
latencies of the successful trials only.  (Stated from the spec's words,
for comparison with the source's `avgResponseTime`.) -/
def specMeanLatency (rs : List TrialResult) : ℚ :=
  let total : Nat :=
    ((rs.filter (fun r => r.success)).map (fun r => r.responseTime)).sum
  (total : ℚ) / (successCount rs : ℚ)

/-- Modelled from the spec: the HTTP-shaped entrypoint surface (provided by
the agent framework, which is not part of this repository's sources)
validates the request body against the declared input schema and only on
success invokes the handler; the handler performs the CoinGecko fetch and
then, only when data arrived, the inference call.  The result is paired
with the list of upstream (paid) calls performed. -/
def invokeEntrypoint (input : Json) (coins : Except (List Char) (List Coin))
    (inference : Except (List Char) (List Char)) (ts : Timestamps)
    (modelName : List Char) (durationMs : Nat) :
    Except (List Char) HandlerReturn × List PaidWork :=
  match validateInput input with
  | none => (.error ("Invalid input".toList), [])
  | some _ =>
    let effects :=
      match coins with
      | .error _ => [PaidWork.fetchCoins]
      | .ok cs =>
        if cs.isEmpty then [PaidWork.fetchCoins]
        else [PaidWork.fetchCoins, PaidWork.inference]
    (analyzeMoodboardHandler coins inference ts modelName durationMs, effects)

/-! ## Theorems -/

/-- `numInRange` decides exactly the rational range condition. -/
theorem numInRange_iff (lo hi m : Int) (e : Nat) :
    numInRange lo hi m e = true ↔ (lo : ℚ) ≤ numVal m e ∧ numVal m e ≤ hi := by
  have hpow : (0 : ℚ) < (10 : ℚ) ^ e := by positivity
  constructor
  · rintro h
    rw [numInRange, decide_eq_true_eq] at h
    constructor
    · rw [numVal, le_div_iff hpow]
      calc (lo : ℚ) * (10 : ℚ) ^ e = ((lo * (10 : Int) ^ e : Int) : ℚ) := by push_cast; ring
        _ ≤ (m : ℚ) := by exact_mod_cast h.1
    · rw [numVal, div_le_iff hpow]
      calc (m : ℚ) ≤ ((hi * (10 : Int) ^ e : Int) : ℚ) := by exact_mod_cast h.2
        _ = (hi : ℚ) * (10 : ℚ) ^ e := by push_cast; ring
  · rintro ⟨h1, h2⟩
    rw [numInRange, decide_eq_true_eq]
    rw [numVal, le_div_iff hpow] at h1
    rw [numVal, div_le_iff hpow] at h2
    constructor
    · exact_mod_cast calc ((lo * (10 : Int) ^ e : Int) : ℚ)
          = (lo : ℚ) * (10 : ℚ) ^ e := by push_cast; ring
        _ ≤ (m : ℚ) := h1
    · exact_mod_cast calc (m : ℚ) ≤ (hi : ℚ) * (10 : ℚ) ^ e := h2
        _ = ((hi * (10 : Int) ^ e : Int) : ℚ) := by push_cast; ring

/-- Two characters differ when a decidable character class separates
them. -/
theorem ne_of_isDigitCh {c x : Char} (hd : isDigitCh c = true)
    (hx : isDigitCh x = false) : c ≠ x := by
  intro h
  rw [h, hx] at hd
  cases hd

/-- A decimal digit is not JSON whitespace. -/
theorem isJsonWs_of_digit {c : Char} (hd : isDigitCh c = true) :
    isJsonWs c = false := by
  have h1 : c ≠ ' ' := ne_of_isDigitCh hd (by decide)
  have h2 : c ≠ '\t' := ne_of_isDigitCh hd (by decide)
  have h3 : c ≠ '\n' := ne_of_isDigitCh hd (by decide)
  have h4 : c ≠ '\r' := ne_of_isDigitCh hd (by decide)
  simp [isJsonWs, h1, h2, h3, h4]

/-- Digit characters are digits. -/
theorem digitChar_isDigit (d : Nat) (h : d < 10) :
    isDigitCh (digitChar d) = true := by
  interval_cases d <;> decide

/-- `skipWs` does not move past a non-whitespace head. -/
theorem skipWs_cons {c : Char} (h : isJsonWs c = false) (l : List Char) :
    skipWs (c :: l) = c :: l := by
  simp [skipWs, List.dropWhile_cons, h]

/-- The head of the tail of a run: a predicate-driven split of
`takeWhile`/`dropWhile` around a run followed by a non-run character. -/
theorem takeWhile_run (p : Char → Bool) :
    ∀ (l r : List Char), (∀ c ∈ l, p c = true) → headNot p r →
      (l ++ r).takeWhile p = l ∧ (l ++ r).dropWhile p = r := by
  intro l
  induction l with
  | nil =>
    intro r _ hr
    cases r with
    | nil => exact ⟨rfl, rfl⟩
    | cons c r' =>
      rw [headNot] at hr
      simp only [List.nil_append]
      constructor
      · simp [List.takeWhile_cons, hr]
      · simp [List.dropWhile_cons, hr]
  | cons c l' ih =>
    intro r hl hr
    have hc : p c = true := hl c (by simp)
    have hl' : ∀ x ∈ l', p x = true := fun x hx => hl x (by simp [hx])
    rcases ih r hl' hr with ⟨h1, h2⟩
    constructor
    · simp [List.takeWhile_cons, hc, h1]
    · simp [List.dropWhile_cons, hc, h2]

/-- `foldl` of the digit-accumulator over a block, started from an
arbitrary accumulator. -/
theorem foldl_digits (ds : List Char) :
    ∀ acc : Nat,
      ds.foldl (fun a c => a * 10 + (c.toNat - 48)) acc
        = acc * 10 ^ ds.length + ds.foldl (fun a c => a * 10 + (c.toNat - 48)) 0 := by
  induction ds with
  | nil => intro acc; simp
  | cons c ds ih =>
    intro acc
    simp only [List.foldl_cons, List.length_cons]
    rw [ih (acc * 10 + (c.toNat - 48)), ih (0 * 10 + (c.toNat - 48))]
    ring

/-- `digitsToNat` across an append. -/
theorem digitsToNat_append (a b : List Char) :
    digitsToNat (a ++ b) = digitsToNat a * 10 ^ b.length + digitsToNat b := by
  rw [digitsToNat, digitsToNat, digitsToNat, List.foldl_append, foldl_digits]

/-- Leading zeros do not change the value of a digit block. -/
theorem digitsToNat_replicate_zero (k : Nat) (l : List Char) :
    digitsToNat (List.replicate k '0' ++ l) = digitsToNat l := by
  induction k with
  | zero => simp
  | succ k ih =>
    rw [List.replicate_succ, List.cons_append, digitsToNat, List.foldl_cons]
    show List.foldl _ (0 * 10 + ('0'.toNat - 48)) _ = _
    have : (0 * 10 + ('0'.toNat - 48)) = 0 := by decide
    rw [this]
    exact ih

/-- The fueled digit rendering is a nonempty all-digit block whose value is
the rendered number, for any sufficient fuel. -/
theorem natCharsAux_spec :
    ∀ (fuel n : Nat), n < fuel →
      natCharsAux fuel n ≠ [] ∧
      (∀ c ∈ natCharsAux fuel n, isDigitCh c = true) ∧
      digitsToNat (natCharsAux fuel n) = n := by
  intro fuel
  induction fuel with
  | zero => intro n h; omega
  | succ fuel ih =>
    intro n h
    by_cases h10 : n < 10
    · rw [natCharsAux, if_pos h10]
      refine ⟨by simp, ?_, ?_⟩
      · intro c hc
        rw [List.mem_singleton] at hc
        subst hc
        exact digitChar_isDigit n h10
      · rw [digitsToNat, List.foldl_cons, List.foldl_nil]
        interval_cases n <;> decide
    · rw [natCharsAux, if_neg h10]
      have hdiv : n / 10 < fuel := by omega
      rcases ih (n / 10) hdiv with ⟨h1, h2, h3⟩
      refine ⟨by simp, ?_, ?_⟩
      · intro c hc
        rw [List.mem_append] at hc
        rcases hc with hc | hc
        · exact h2 c hc
        · rw [List.mem_singleton] at hc
          subst hc
          exact digitChar_isDigit _ (by omega)
      · rw [digitsToNat_append, h3]
        have : digitsToNat [digitChar (n % 10)] = n % 10 := by
          rw [digitsToNat, List.foldl_cons, List.foldl_nil]
          have h9 : n % 10 < 10 := by omega
          interval_cases hni : (n % 10) <;> simp_all <;> decide
        rw [this]
        simp only [List.length_singleton, pow_one]
        omega

/-- `natChars` is a nonempty all-digit block whose value is `n`. -/
theorem natChars_spec (n : Nat) :
    natChars n ≠ [] ∧
    (∀ c ∈ natChars n, isDigitCh c = true) ∧
    digitsToNat (natChars n) = n :=
  natCharsAux_spec (n + 1) n (by omega)

/-- A positive number never renders with a leading zero digit. -/
theorem natCharsAux_head_ne_zero :
    ∀ (fuel n : Nat), n < fuel → 1 ≤ n →
      (natCharsAux fuel n).head? ≠ some '0' := by
  intro fuel
  induction fuel with
  | zero => intro n h; omega
  | succ fuel ih =>
    intro n h hpos
    by_cases h10 : n < 10
    · rw [natCharsAux, if_pos h10]
      interval_cases n <;> decide
    · rw [natCharsAux, if_neg h10]
      have hne : natCharsAux fuel (n / 10) ≠ [] :=
        (natCharsAux_spec fuel (n / 10) (by omega)).1
      rw [List.head?_append_of_ne_nil _ hne]
      exact ih (n / 10) (by omega) (by omega)

/-- Rendering `n < 10 ^ k` takes at most `k` digits. -/
theorem natCharsAux_length_le :
    ∀ (fuel n k : Nat), n < fuel → n < 10 ^ k → 1 ≤ k →
      (natCharsAux fuel n).length ≤ k := by
  intro fuel
  induction fuel with
  | zero => intro n k h; omega
  | succ fuel ih =>
    intro n k h hk hk1
    by_cases h10 : n < 10
    · rw [natCharsAux, if_pos h10]
      simpa using hk1
    · rw [natCharsAux, if_neg h10]
      have hk2 : 2 ≤ k := by
        by_contra hlt
        have hk1' : k = 1 := by omega
        subst hk1'
        simp at hk
        omega
      have hdivk : n / 10 < 10 ^ (k - 1) := by
        rw [Nat.div_lt_iff_lt_mul (by norm_num)]
        calc n < 10 ^ k := hk
          _ = 10 ^ (k - 1) * 10 := by
            rw [← pow_succ]
            congr 1
            omega
      have := ih (n / 10) (k - 1) (by omega) hdivk (by omega)
      rw [List.length_append, List.length_singleton]
      omega

/-- `natChars` of a positive number has no leading zero. -/
theorem natChars_head_ne_zero (n : Nat) (h : 1 ≤ n) :
    (natChars n).head? ≠ some '0' :=
  natCharsAux_head_ne_zero (n + 1) n (by omega) h

/-- `natChars 0` is the single zero digit. -/
theorem natChars_zero : natChars 0 = ['0'] := by decide

/-- `natChars` of `n < 10 ^ k` takes at most `k` digits. -/
theorem natChars_length_le (n k : Nat) (hk : n < 10 ^ k) (hk1 : 1 ≤ k) :
    (natChars n).length ≤ k :=
  natCharsAux_length_le (n + 1) n k (by omega) hk hk1

/-- Hex digits round-trip through their character rendering. -/
theorem hexVal_hexChar (d : Nat) (h : d < 16) : hexVal (hexChar d) = some d := by
  interval_cases d <;> decide

/-- The string-body parser undoes `JSON.stringify` escaping: the escaped
body followed by the closing quote parses back to the original characters
with the input after the quote left over. -/
theorem parseStringBody_escape :
    ∀ (s rest : List Char),
      parseStringBody (escape s ++ '"' :: rest) = some (s, rest) := by
  intro s
  induction s with
  | nil =>
    intro rest
    show parseStringBody ('"' :: rest) = some ([], rest)
    rw [parseStringBody.eq_def]
    simp
  | cons c s' ih =>
    intro rest
    show parseStringBody ((escapeChar c ++ escape s') ++ '"' :: rest) = _
    rw [List.append_assoc]
    by_cases h1 : c = '"'
    · subst h1
      rw [show escapeChar '"' = ['\\', '"'] from by decide]
      rw [parseStringBody.eq_def]
      simp +decide [unescapeChar, ih]
    · by_cases h2 : c = '\\'
      · subst h2
        rw [show escapeChar '\\' = ['\\', '\\'] from by decide]
        rw [parseStringBody.eq_def]
        simp +decide [unescapeChar, ih]
      · by_cases h3 : c = '\n'
        · subst h3
          rw [show escapeChar '\n' = ['\\', 'n'] from by decide]
          rw [parseStringBody.eq_def]
          simp +decide [unescapeChar, ih]
        · by_cases h4 : c = '\r'
          · subst h4
            rw [show escapeChar '\r' = ['\\', 'r'] from by decide]
            rw [parseStringBody.eq_def]
            simp +decide [unescapeChar, ih]
          · by_cases h5 : c = '\t'
            · subst h5
              rw [show escapeChar '\t' = ['\\', 't'] from by decide]
              rw [parseStringBody.eq_def]
              simp +decide [unescapeChar, ih]
            · by_cases h6 : c = '\x08'
              · subst h6
                rw [show escapeChar '\x08' = ['\\', 'b'] from by decide]
                rw [parseStringBody.eq_def]
                simp +decide [unescapeChar, ih]
              · by_cases h7 : c = '\x0c'
                · subst h7
                  rw [show escapeChar '\x0c' = ['\\', 'f'] from by decide]
                  rw [parseStringBody.eq_def]
                  simp +decide [unescapeChar, ih]
                · by_cases h8 : c.toNat < 32
                  · rw [escapeChar, if_neg h1, if_neg h2, if_neg h3, if_neg h4,
                      if_neg h5, if_neg h6, if_neg h7, if_pos h8]
                    have hdiv : c.toNat / 16 < 16 := by omega
                    have hmod : c.toNat % 16 < 16 := by omega
                    rw [List.cons_append, List.cons_append, List.cons_append,
                      List.cons_append, List.cons_append, List.cons_append,
                      List.nil_append]
                    rw [parseStringBody.eq_def]
                    simp only [if_neg (by decide : ¬ ('\\' : Char) = '"'),
                      if_pos (rfl : ('\\' : Char) = '\\'),
                      if_pos (rfl : ('u' : Char) = 'u'),
                      hexVal_hexChar _ hdiv, hexVal_hexChar _ hmod,
                      show hexVal '0' = some 0 from by decide]
                    have harith : ((0 * 16 + 0) * 16 + c.toNat / 16) * 16 + c.toNat % 16
                        = c.toNat := by omega
                    rw [harith, Char.ofNat_toNat, ih]
                    rfl
                  · rw [escapeChar, if_neg h1, if_neg h2, if_neg h3, if_neg h4,
                      if_neg h5, if_neg h6, if_neg h7, if_neg h8]
                    rw [List.cons_append, List.nil_append]
                    rw [parseStringBody.eq_def]
                    simp only [if_neg h1, if_neg h2, if_neg h8, ih]
                    rfl

/-- With a number-safe continuation, `parseExpPart` finds no exponent and
returns the assembled number. -/
theorem parseExpPart_safe (neg : Bool) (mAbs : Int) (e : Nat)
    (rest : List Char) (h : numSafe rest = true) :
    parseExpPart neg mAbs e rest = some (.num (applySign neg mAbs) e, rest) := by
  cases rest with
  | nil => rfl
  | cons c r =>
    simp only [numSafe, Bool.and_eq_true, decide_eq_true_eq,
      Bool.not_eq_true'] at h
    rw [parseExpPart, if_neg (by tauto)]

/-- Parsing the unsigned rendering of a whole number consumes exactly its
digits. -/
theorem parseUnsigned_int (neg : Bool) (n : Nat) (rest : List Char)
    (hsafe : numSafe rest = true) :
    parseUnsignedNumber neg (natChars n ++ rest)
      = some (.num (applySign neg n) 0, rest) := by
  obtain ⟨hne, hdig, hval⟩ := natChars_spec n
  have hrest_hd : headNot isDigitCh rest := by
    cases rest with
    | nil => trivial
    | cons c r =>
      rw [headNot]
      simp only [numSafe, Bool.and_eq_true, decide_eq_true_eq,
        Bool.not_eq_true'] at hsafe
      exact hsafe.1.1.1
  have htak : (natChars n ++ rest).takeWhile isDigitCh = natChars n :=
    (takeWhile_run isDigitCh (natChars n) rest hdig hrest_hd).1
  have hdr : (natChars n ++ rest).dropWhile isDigitCh = rest :=
    (takeWhile_run isDigitCh (natChars n) rest hdig hrest_hd).2
  have hzero : ¬(1 < (natChars n).length ∧ (natChars n).head? = some '0') := by
    by_cases hn : n = 0
    · subst hn; rw [natChars_zero]; simp
    · intro hcontra
      exact natChars_head_ne_zero n (by omega) hcontra.2
  obtain ⟨d, t, hds⟩ := List.exists_cons_of_ne_nil hne
  have hd_dig : isDigitCh d = true := hdig d (by rw [hds]; simp)
  rw [parseUnsignedNumber.eq_def]
  rw [hds] at htak hdr hzero hval ⊢
  simp only [List.cons_append] at htak hdr ⊢
  simp only [if_neg (show ¬ ¬ isDigitCh d = true from by simp [hd_dig]), htak, hdr]
  cases rest with
  | nil =>
    simp only [if_neg hzero, hval]
    exact parseExpPart_safe neg (n : Int) 0 [] (by decide)
  | cons c r =>
    have hsafe' := hsafe
    simp only [numSafe, Bool.and_eq_true, decide_eq_true_eq,
      Bool.not_eq_true'] at hsafe
    simp only [if_neg hzero, hval, if_neg hsafe.1.1.2]
    exact parseExpPart_safe neg (n : Int) 0 (c :: r) hsafe'

/-- Parsing the unsigned rendering of a fractional decimal consumes the
integer digits, the point, and the padded fraction digits. -/
theorem parseUnsigned_frac (neg : Bool) (n e : Nat) (he : e ≠ 0)
    (rest : List Char) (hsafe : numSafe rest = true) :
    parseUnsignedNumber neg
      (natChars (n / 10 ^ e) ++ '.' ::
        ((List.replicate (e - (natChars (n % 10 ^ e)).length) '0'
          ++ natChars (n % 10 ^ e)) ++ rest))
      = some (.num (applySign neg n) e, rest) := by
  obtain ⟨hneI, hdigI, hvalI⟩ := natChars_spec (n / 10 ^ e)
  obtain ⟨hneF, hdigF, hvalF⟩ := natChars_spec (n % 10 ^ e)
  set frac : List Char :=
    List.replicate (e - (natChars (n % 10 ^ e)).length) '0'
      ++ natChars (n % 10 ^ e) with hfrac
  have hdigFrac : ∀ c ∈ frac, isDigitCh c = true := by
    intro c hc
    rw [hfrac, List.mem_append] at hc
    rcases hc with hc | hc
    · rw [List.eq_of_mem_replicate hc]; decide
    · exact hdigF c hc
  have hrest_hd : headNot isDigitCh rest := by
    cases rest with
    | nil => trivial
    | cons c r =>
      rw [headNot]
      simp only [numSafe, Bool.and_eq_true, decide_eq_true_eq,
        Bool.not_eq_true'] at hsafe
      exact hsafe.1.1.1
  have htak1 : (natChars (n / 10 ^ e) ++ '.' :: (frac ++ rest)).takeWhile isDigitCh
      = natChars (n / 10 ^ e) :=
    (takeWhile_run isDigitCh _ _ hdigI (show headNot isDigitCh ('.' :: (frac ++ rest)) from by rw [headNot]; decide)).1
  have hdr1 : (natChars (n / 10 ^ e) ++ '.' :: (frac ++ rest)).dropWhile isDigitCh
      = '.' :: (frac ++ rest) :=
    (takeWhile_run isDigitCh _ _ hdigI (show headNot isDigitCh ('.' :: (frac ++ rest)) from by rw [headNot]; decide)).2
  have htak2 : (frac ++ rest).takeWhile isDigitCh = frac :=
    (takeWhile_run isDigitCh frac rest hdigFrac hrest_hd).1
  have hdr2 : (frac ++ rest).dropWhile isDigitCh = rest :=
    (takeWhile_run isDigitCh frac rest hdigFrac hrest_hd).2
  have hfrac_ne : frac ≠ [] := by
    rw [hfrac]
    intro hcontra
    rcases List.append_eq_nil.mp hcontra with ⟨_, h2⟩
    exact hneF h2
  have hfrac_len : frac.length = e := by
    have hL : (natChars (n % 10 ^ e)).length ≤ e :=
      natChars_length_le _ e (Nat.mod_lt _ (by positivity)) (by omega)
    rw [hfrac, List.length_append, List.length_replicate]
    omega
  have hfrac_val : digitsToNat frac = n % 10 ^ e := by
    rw [hfrac, digitsToNat_replicate_zero, hvalF]
  have hzero : ¬(1 < (natChars (n / 10 ^ e)).length ∧
      (natChars (n / 10 ^ e)).head? = some '0') := by
    by_cases hn : n / 10 ^ e = 0
    · rw [hn, natChars_zero]; simp
    · intro hcontra
      exact natChars_head_ne_zero _ (by omega) hcontra.2
  obtain ⟨d, t, hds⟩ := List.exists_cons_of_ne_nil hneI
  have hd_dig : isDigitCh d = true := hdigI d (by rw [hds]; simp)
  rw [parseUnsignedNumber.eq_def]
  rw [hds] at htak1 hdr1 hzero hvalI ⊢
  simp only [List.cons_append] at htak1 hdr1 ⊢
  simp only [if_neg (show ¬ ¬ isDigitCh d = true from by simp [hd_dig]), htak1, hdr1]
  rw [if_neg hzero, hvalI]
  simp only [if_true, htak2, hdr2]
  rw [if_neg (by simp [hfrac_ne]), hfrac_val, hfrac_len]
  have hmant : (n / 10 ^ e) * 10 ^ e + n % 10 ^ e = n := Nat.div_add_mod' n (10 ^ e)
  rw [hmant]
  exact parseExpPart_safe neg (n : Int) e rest hsafe

/-- `parseNumber` on a cons dispatches on the minus sign. -/
theorem parseNumber_cons (c : Char) (t : List Char) :
    parseNumber (c :: t)
      = if c = '-' then parseUnsignedNumber true t
        else parseUnsignedNumber false (c :: t) := by
  rw [parseNumber.eq_def]

/-- `parseNumber` undoes the decimal rendering of `m / 10 ^ e`. -/
theorem parseNumber_numChars (m : Int) (e : Nat) (rest : List Char)
    (hsafe : numSafe rest = true) :
    parseNumber (numChars m e ++ rest) = some (.num m e, rest) := by
  have hsignT : applySign true (m.natAbs : Int) = -(m.natAbs : Int) := by
    rw [applySign, if_pos rfl]
  have hsignF : applySign false (m.natAbs : Int) = (m.natAbs : Int) := by
    rw [applySign, if_neg (by simp)]
  by_cases he : e = 0
  · subst he
    rw [numChars, if_pos rfl, intChars]
    by_cases hm : m < 0
    · rw [if_pos hm, List.cons_append, parseNumber_cons, if_pos rfl,
        parseUnsigned_int true m.natAbs rest hsafe, hsignT]
      have hmm : -((m.natAbs : Int)) = m := by omega
      rw [hmm]
    · obtain ⟨hne, hdig, _⟩ := natChars_spec m.natAbs
      obtain ⟨d, t, hds⟩ := List.exists_cons_of_ne_nil hne
      have hd_dig : isDigitCh d = true := hdig d (by rw [hds]; simp)
      have hdm : ¬ d = '-' := ne_of_isDigitCh hd_dig (by decide)
      rw [if_neg hm, hds, List.cons_append, parseNumber_cons, if_neg hdm,
        ← List.cons_append, ← hds,
        parseUnsigned_int false m.natAbs rest hsafe, hsignF]
      have hmm : ((m.natAbs : Int)) = m := by omega
      rw [hmm]
  · rw [numChars, if_neg he]
    by_cases hm : m < 0
    · rw [if_pos hm]
      simp only [List.cons_append, List.nil_append, List.append_assoc]
      rw [parseNumber_cons, if_pos rfl]
      have hfr := parseUnsigned_frac true m.natAbs e he rest hsafe
      simp only [List.cons_append, List.append_assoc] at hfr
      rw [hfr, hsignT]
      have hmm : -((m.natAbs : Int)) = m := by omega
      rw [hmm]
    · rw [if_neg hm]
      simp only [List.nil_append, List.cons_append, List.append_assoc]
      obtain ⟨hne, hdig, _⟩ := natChars_spec (m.natAbs / 10 ^ e)
      obtain ⟨d, t, hds⟩ := List.exists_cons_of_ne_nil hne
      have hd_dig : isDigitCh d = true := hdig d (by rw [hds]; simp)
      have hdm : ¬ d = '-' := ne_of_isDigitCh hd_dig (by decide)
      rw [hds, List.cons_append, parseNumber_cons, if_neg hdm,
        ← List.cons_append, ← hds]
      have hfr := parseUnsigned_frac false m.natAbs e he rest hsafe
      simp only [List.cons_append, List.append_assoc] at hfr
      rw [hfr, hsignF]
      have hmm : ((m.natAbs : Int)) = m := by omega
      rw [hmm]

/-- Every JSON value has positive parse cost. -/
theorem jcost_pos : ∀ v : Json, 1 ≤ jcost v := by
  intro v
  cases v <;> simp [jcost] <;> omega

/-- The head character of a rendered number is a minus sign or a digit. -/
theorem numChars_head (m : Int) (e : Nat) :
    ∃ c t, numChars m e = c :: t ∧ (c = '-' ∨ isDigitCh c = true) := by
  by_cases he : e = 0
  · subst he
    rw [numChars, if_pos rfl, intChars]
    by_cases hm : m < 0
    · exact ⟨'-', _, by rw [if_pos hm], Or.inl rfl⟩
    · rw [if_neg hm]
      obtain ⟨hne, hdig, _⟩ := natChars_spec m.natAbs
      obtain ⟨d, t, hds⟩ := List.exists_cons_of_ne_nil hne
      exact ⟨d, t, hds, Or.inr (hdig d (by rw [hds]; simp))⟩
  · rw [numChars, if_neg he]
    by_cases hm : m < 0
    · rw [if_pos hm]
      exact ⟨'-', _, rfl, Or.inl rfl⟩
    · rw [if_neg hm]
      obtain ⟨hne, hdig, _⟩ := natChars_spec (m.natAbs / 10 ^ e)
      obtain ⟨d, t, hds⟩ := List.exists_cons_of_ne_nil hne
      refine ⟨d, t ++ '.' :: (List.replicate (e - (natChars (m.natAbs % 10 ^ e)).length) '0'
        ++ natChars (m.natAbs % 10 ^ e)), ?_, Or.inr (hdig d (by rw [hds]; simp))⟩
      show [] ++ natChars (m.natAbs / 10 ^ e) ++ '.' ::
        (List.replicate (e - (natChars (m.natAbs % 10 ^ e)).length) '0'
          ++ natChars (m.natAbs % 10 ^ e)) = _
      rw [List.nil_append, hds, List.cons_append]

/-- The head character of any rendered JSON value: never whitespace, and
one of the dispatch characters of `parseValue`. -/
theorem stringify_head (v : Json) :
    ∃ c t, stringifyChars v = c :: t ∧ isJsonWs c = false ∧
      (c = '-' ∨ isDigitCh c = true ∨ c = 'n' ∨ c = 't' ∨ c = 'f' ∨
        c = '"' ∨ c = '[' ∨ c = '{') := by
  cases v with
  | null => exact ⟨'n', _, rfl, by decide, by tauto⟩
  | bool b =>
    cases b with
    | true => exact ⟨'t', _, rfl, by decide, by tauto⟩
    | false => exact ⟨'f', _, rfl, by decide, by tauto⟩
  | num m e =>
    obtain ⟨c, t, hct, hc⟩ := numChars_head m e
    refine ⟨c, t, hct, ?_, by tauto⟩
    rcases hc with hc | hc
    · subst hc; decide
    · exact isJsonWs_of_digit hc
  | str s => exact ⟨'"', _, rfl, by decide, by tauto⟩
  | arr xs => exact ⟨'[', _, rfl, by decide, by tauto⟩
  | obj fs => exact ⟨'{', _, rfl, by decide, by tauto⟩

/-- Keys of the left part of a duplicate-free field list never collide
with a key to its right. -/
theorem distinctKeys_not_in_left :
    ∀ (l₁ : List (List Char × Json)) (k : List Char) (v : Json)
      (l₂ : List (List Char × Json)),
      distinctKeys (l₁ ++ (k, v) :: l₂) = true →
      l₁.any (fun p => p.1 = k) = false := by
  intro l₁
  induction l₁ with
  | nil => intro k v l₂ _; rfl
  | cons q l₁' ih =>
    intro k v l₂ h
    obtain ⟨qk, qv⟩ := q
    rw [List.cons_append, distinctKeys, Bool.and_eq_true] at h
    rcases h with ⟨hnot, hrest⟩
    rw [Bool.not_eq_true', List.any_eq_false] at hnot
    have hkq : decide ((k, v).1 = qk) = false :=
      Bool.not_eq_true _ ▸ Bool.of_not_eq_true (hnot (k, v) (by simp))
    rw [List.any_cons, Bool.or_eq_false_iff]
    constructor
    · simp only [decide_eq_false_iff_not]
      intro hqk
      rw [decide_eq_false_iff_not] at hkq
      exact hkq (by simpa using hqk.symm)
    · exact ih k v l₂ hrest

/-- `numSafe` holds of a cons whose head cannot extend a number token. -/
theorem numSafe_cons {c : Char} (l : List Char) (h1 : isDigitCh c = false)
    (h2 : c ≠ '.') (h3 : c ≠ 'e') (h4 : c ≠ 'E') : numSafe (c :: l) = true := by
  simp [numSafe, h1, h2, h3, h4]

/-- The fueled parser undoes `stringifyChars` for any adequate fuel:
values, array element lists and object field lists (the latter under
key-uniqueness of the accumulated object). -/
theorem parse_stringify_fuel :
    ∀ fuel : Nat,
      (∀ (v : Json) (rest : List Char), jsWF v = true → jcost v ≤ fuel →
        numSafe rest = true →
        parseValue fuel (stringifyChars v ++ rest) = some (v, rest)) ∧
      (∀ (xs : List Json) (acc : List Json) (rest : List Char), xs ≠ [] →
        jsWFList xs = true → ecost xs + 1 ≤ fuel →
        parseElems fuel (stringifyElems xs ++ ']' :: rest) acc
          = some (.arr (acc ++ xs), rest)) ∧
      (∀ (fs : List (List Char × Json)) (acc : List (List Char × Json))
          (rest : List Char), fs ≠ [] → jsWFFields fs = true →
        distinctKeys (acc ++ fs) = true → fcost fs + 1 ≤ fuel →
        parseFields fuel (stringifyFields fs ++ '}' :: rest) acc
          = some (.obj (acc ++ fs), rest)) := by
  intro fuel
  induction fuel with
  | zero =>
    refine ⟨?_, ?_, ?_⟩
    · intro v rest _ hc _
      have := jcost_pos v
      omega
    · intro xs acc rest _ _ hc
      omega
    · intro fs acc rest _ _ _ hc
      omega
  | succ fuel ih =>
    obtain ⟨ihv, ihe, ihf⟩ := ih
    refine ⟨?_, ?_, ?_⟩
    · -- values
      intro v rest hwf hc hsafe
      cases v with
      | null =>
        show parseValue (fuel + 1) (['n', 'u', 'l', 'l'] ++ rest) = _
        simp +decide [parseValue, skipWs, stripChars]
      | bool b =>
        cases b with
        | true =>
          show parseValue (fuel + 1) (['t', 'r', 'u', 'e'] ++ rest) = _
          simp +decide [parseValue, skipWs, stripChars]
        | false =>
          show parseValue (fuel + 1) (['f', 'a', 'l', 's', 'e'] ++ rest) = _
          simp +decide [parseValue, skipWs, stripChars]
      | str s =>
        show parseValue (fuel + 1) (('"' :: (escape s ++ ['"'])) ++ rest) = _
        rw [List.cons_append, List.append_assoc, List.cons_append, List.nil_append]
        simp +decide [parseValue, skipWs, parseStringBody_escape s rest]
      | num m e =>
        obtain ⟨c, t, hct, hc'⟩ := numChars_head m e
        have hws : isJsonWs c = false := by
          rcases hc' with h | h
          · subst h; decide
          · exact isJsonWs_of_digit h
        have hnum := parseNumber_numChars m e rest hsafe
        show parseValue (fuel + 1) (numChars m e ++ rest) = _
        rw [hct] at hnum ⊢
        rw [List.cons_append] at hnum ⊢
        rw [parseValue.eq_def]
        simp only [skipWs_cons hws]
        have hn : ¬ c = 'n' := by
          rcases hc' with h | h
          · subst h; decide
          · exact ne_of_isDigitCh h (by decide)
        have ht : ¬ c = 't' := by
          rcases hc' with h | h
          · subst h; decide
          · exact ne_of_isDigitCh h (by decide)
        have hf : ¬ c = 'f' := by
          rcases hc' with h | h
          · subst h; decide
          · exact ne_of_isDigitCh h (by decide)
        have hq : ¬ c = '"' := by
          rcases hc' with h | h
          · subst h; decide
          · exact ne_of_isDigitCh h (by decide)
        have hb : ¬ c = '[' := by
          rcases hc' with h | h
          · subst h; decide
          · exact ne_of_isDigitCh h (by decide)
        have ho : ¬ c = '{' := by
          rcases hc' with h | h
          · subst h; decide
          · exact ne_of_isDigitCh h (by decide)
        simp only [if_neg hn, if_neg ht, if_neg hf, if_neg hq, if_neg hb, if_neg ho]
        exact hnum
      | arr xs =>
        show parseValue (fuel + 1) (('[' :: (stringifyElems xs ++ [']'])) ++ rest) = _
        rw [List.cons_append, List.append_assoc, List.cons_append, List.nil_append]
        rw [parseValue.eq_def]
        simp +decide only [skipWs_cons (show isJsonWs '[' = false from by decide)]
        cases xs with
        | nil =>
          simp +decide [stringifyElems, List.nil_append,
            skipWs_cons (show isJsonWs ']' = false from by decide)]
        | cons x xs' =>
          obtain ⟨c, t, hx, hws, hout⟩ := stringify_head x
          have hcons : ∃ u, stringifyElems (x :: xs') ++ ']' :: rest = c :: u := by
            cases xs' with
            | nil =>
              refine ⟨t ++ ']' :: rest, ?_⟩
              show stringifyChars x ++ ']' :: rest = _
              rw [hx, List.cons_append]
            | cons y ys =>
              refine ⟨t ++ (',' :: stringifyElems (y :: ys) ++ ']' :: rest), ?_⟩
              show (stringifyChars x ++ ',' :: stringifyElems (y :: ys)) ++ ']' :: rest = _
              simp [hx]
          obtain ⟨u, hu⟩ := hcons
          rw [hu, skipWs_cons hws]
          simp +decide only [if_true, if_false]
          have hnb : ¬ c = ']' := by
            rcases hout with h | h | h | h | h | h | h | h
            · subst h; decide
            · exact ne_of_isDigitCh h (by decide)
            all_goals (subst h; decide)
          rw [if_neg hnb, ← hu]
          have hwfl : jsWFList (x :: xs') = true := by
            rw [jsWF] at hwf
            exact hwf
          have hcost : ecost (x :: xs') + 1 ≤ fuel := by
            rw [jcost] at hc
            omega
          have hres := ihe (x :: xs') [] rest (by simp) hwfl hcost
          rw [List.nil_append] at hres
          exact hres
      | obj fs =>
        show parseValue (fuel + 1) (('{' :: (stringifyFields fs ++ ['}'])) ++ rest) = _
        rw [List.cons_append, List.append_assoc, List.cons_append, List.nil_append]
        rw [parseValue.eq_def]
        simp +decide only [skipWs_cons (show isJsonWs '{' = false from by decide)]
        cases fs with
        | nil =>
          simp +decide [stringifyFields, List.nil_append,
            skipWs_cons (show isJsonWs '}' = false from by decide)]
        | cons f fs' =>
          obtain ⟨k, v⟩ := f
          have hcons : ∃ u, stringifyFields ((k, v) :: fs') ++ '}' :: rest = '"' :: u := by
            cases fs' with
            | nil =>
              refine ⟨(escape k ++ '"' :: ':' :: stringifyChars v) ++ '}' :: rest, ?_⟩
              show ('"' :: (escape k ++ '"' :: ':' :: stringifyChars v)) ++ '}' :: rest = _
              rw [List.cons_append]
            | cons g gs =>
              refine ⟨(escape k ++ '"' :: ':' :: stringifyChars v)
                ++ (',' :: stringifyFields (g :: gs) ++ '}' :: rest), ?_⟩
              show (('"' :: (escape k ++ '"' :: ':' :: stringifyChars v))
                ++ ',' :: stringifyFields (g :: gs)) ++ '}' :: rest = _
              simp
          obtain ⟨u, hu⟩ := hcons
          rw [hu, skipWs_cons (show isJsonWs '"' = false from by decide)]
          simp +decide only [if_true, if_false]
          rw [← hu]
          have hwff : jsWFFields ((k, v) :: fs') = true := by
            rw [jsWF, Bool.and_eq_true] at hwf
            exact hwf.2
          have hdk : distinctKeys ([] ++ (k, v) :: fs') = true := by
            rw [List.nil_append]
            rw [jsWF, Bool.and_eq_true] at hwf
            exact hwf.1
          have hcost : fcost ((k, v) :: fs') + 1 ≤ fuel := by
            rw [jcost] at hc
            omega
          have hres := ihf ((k, v) :: fs') [] rest (by simp) hwff hdk hcost
          rw [List.nil_append] at hres
          exact hres
    · -- element lists
      intro xs acc rest hne hwf hcost
      cases xs with
      | nil => exact absurd rfl hne
      | cons x xs' =>
        rw [jsWFList, Bool.and_eq_true] at hwf
        rw [ecost] at hcost
        rw [parseElems.eq_def]
        cases xs' with
        | nil =>
          simp only [stringifyElems]
          rw [ihv x (']' :: rest) hwf.1 (by omega)
            (numSafe_cons _ (by decide) (by decide) (by decide) (by decide))]
          simp only []
          rw [skipWs_cons (show isJsonWs ']' = false from by decide)]
          simp +decide only [if_true, if_false]
        | cons y ys =>
          simp only [stringifyElems, List.append_assoc, List.cons_append]
          rw [ihv x (',' :: (stringifyElems (y :: ys) ++ ']' :: rest)) hwf.1
            (by omega)
            (numSafe_cons _ (by decide) (by decide) (by decide) (by decide))]
          simp only []
          rw [skipWs_cons (show isJsonWs ',' = false from by decide)]
          simp +decide only [if_true, if_false]
          have hres := ihe (y :: ys) (acc ++ [x]) rest (by simp) hwf.2 (by omega)
          rw [hres, List.append_assoc]
          rfl
    · -- field lists
      intro fs acc rest hne hwf hdk hcost
      cases fs with
      | nil => exact absurd rfl hne
      | cons f fs' =>
        obtain ⟨k, v⟩ := f
        rw [jsWFFields, Bool.and_eq_true] at hwf
        rw [fcost] at hcost
        have hins : objInsert acc k v = acc ++ [(k, v)] := by
          rw [objInsert, if_neg (by
            rw [distinctKeys_not_in_left acc k v fs' hdk]
            simp)]
        have hdk' : distinctKeys ((acc ++ [(k, v)]) ++ fs') = true := by
          rw [List.append_assoc]
          exact hdk
        rw [parseFields.eq_def]
        cases fs' with
        | nil =>
          simp only [stringifyFields, List.append_assoc, List.cons_append,
            List.nil_append]
          rw [skipWs_cons (show isJsonWs '"' = false from by decide)]
          simp +decide only [if_true, if_false]
          rw [parseStringBody_escape k (':' :: (stringifyChars v ++ '}' :: rest))]
          simp only []
          rw [skipWs_cons (show isJsonWs ':' = false from by decide)]
          simp +decide only [if_true, if_false]
          rw [ihv v ('}' :: rest) hwf.1 (by omega)
            (numSafe_cons _ (by decide) (by decide) (by decide) (by decide))]
          simp only []
          rw [skipWs_cons (show isJsonWs '}' = false from by decide)]
          simp +decide only [if_true, if_false]
          rw [hins]
        | cons g gs =>
          simp only [stringifyFields, List.append_assoc, List.cons_append,
            List.nil_append]
          rw [skipWs_cons (show isJsonWs '"' = false from by decide)]
          simp +decide only [if_true, if_false]
          rw [parseStringBody_escape k
            (':' :: (stringifyChars v ++ (',' :: (stringifyFields (g :: gs) ++ '}' :: rest))))]
          simp only []
          rw [skipWs_cons (show isJsonWs ':' = false from by decide)]
          simp +decide only [if_true, if_false]
          rw [ihv v (',' :: (stringifyFields (g :: gs) ++ '}' :: rest)) hwf.1
            (by omega)
            (numSafe_cons _ (by decide) (by decide) (by decide) (by decide))]
          simp only []
          rw [skipWs_cons (show isJsonWs ',' = false from by decide)]
          simp +decide only [if_true, if_false]
          rw [hins]
          have hres := ihf (g :: gs) (acc ++ [(k, v)]) rest (by simp) hwf.2 hdk'
            (by omega)
          rw [hres, List.append_assoc]
          rfl

/-- Element-list fuel is bounded by twice the rendered length, given the
bound for each element. -/
theorem ecost_le_twice_length :
    ∀ xs : List Json,
      (∀ x ∈ xs, jcost x + 1 ≤ 2 * (stringifyChars x).length) →
      ecost xs ≤ 2 * (stringifyElems xs).length := by
  intro xs
  induction xs with
  | nil => intro _; simp [ecost, stringifyElems]
  | cons x xs' ih =>
    intro h
    have hx := h x (by simp)
    cases xs' with
    | nil =>
      rw [ecost, ecost, stringifyElems]
      omega
    | cons y ys =>
      have hrec := ih (fun z hz => h z (by simp [hz]))
      rw [ecost, stringifyElems, List.length_append, List.length_cons]
      omega

/-- Field-list fuel is bounded by twice the rendered length, given the
bound for each field value. -/
theorem fcost_le_twice_length :
    ∀ fs : List (List Char × Json),
      (∀ p ∈ fs, jcost p.2 + 1 ≤ 2 * (stringifyChars p.2).length) →
      fcost fs ≤ 2 * (stringifyFields fs).length := by
  intro fs
  induction fs with
  | nil => intro _; simp [fcost, stringifyFields]
  | cons f fs' ih =>
    intro h
    obtain ⟨k, v⟩ := f
    have hv : jcost v + 1 ≤ 2 * (stringifyChars v).length := h (k, v) (by simp)
    cases fs' with
    | nil =>
      rw [fcost, fcost, stringifyFields]
      simp only [List.length_cons, List.length_append]
      omega
    | cons g gs =>
      have hrec := ih (fun p hp => h p (by simp [hp]))
      rw [fcost, stringifyFields]
      simp only [List.length_cons, List.length_append]
      omega

/-- The parse cost of a value is dominated by twice its rendered length. -/
theorem jcost_le_twice_length (v : Json) :
    jcost v + 1 ≤ 2 * (stringifyChars v).length := by
  have H : ∀ (n : Nat) (v : Json), sizeOf v ≤ n →
      jcost v + 1 ≤ 2 * (stringifyChars v).length := by
    intro n
    induction n with
    | zero =>
      intro v hv
      cases v <;> simp at hv
    | succ n ihn =>
      intro v hv
      cases v with
      | null => decide
      | bool b => cases b <;> decide
      | num m e =>
        obtain ⟨c, t, hct, _⟩ := numChars_head m e
        show jcost (.num m e) + 1 ≤ 2 * (numChars m e).length
        rw [jcost, hct, List.length_cons]
        omega
      | str s =>
        show jcost (.str s) + 1 ≤ 2 * ('"' :: (escape s ++ ['"'])).length
        rw [jcost]
        simp only [List.length_cons, List.length_append, List.length_singleton]
        omega
      | arr xs =>
        have hel : ∀ x ∈ xs, jcost x + 1 ≤ 2 * (stringifyChars x).length := by
          intro x hx
          refine ihn x ?_
          have h1 := List.sizeOf_lt_of_mem hx
          have h2 : sizeOf (Json.arr xs) = 1 + sizeOf xs := by simp
          omega
        have := ecost_le_twice_length xs hel
        show jcost (.arr xs) + 1 ≤ 2 * ('[' :: (stringifyElems xs ++ [']'])).length
        rw [jcost]
        simp only [List.length_cons, List.length_append, List.length_singleton]
        omega
      | obj fs =>
        have hfl : ∀ p ∈ fs, jcost p.2 + 1 ≤ 2 * (stringifyChars p.2).length := by
          intro p hp
          refine ihn p.2 ?_
          have h1 := List.sizeOf_lt_of_mem hp
          have h2 : sizeOf (Json.obj fs) = 1 + sizeOf fs := by simp
          have h3 : sizeOf p.2 < sizeOf p := by
            obtain ⟨a, b⟩ := p
            simp
          omega
        have := fcost_le_twice_length fs hfl
        show jcost (.obj fs) + 1 ≤ 2 * ('{' :: (stringifyFields fs ++ ['}'])).length
        rw [jcost]
        simp only [List.length_cons, List.length_append, List.length_singleton]
        omega
  exact H (sizeOf v) v (le_refl _)

/-- `jsonParse` undoes `stringifyChars` on any well-formed JavaScript
object tree. -/
theorem jsonParse_stringify (v : Json) (hwf : jsWF v = true) :
    jsonParse (stringifyChars v) = some v := by
  rw [jsonParse]
  have hfuel : jcost v ≤ 2 * (stringifyChars v).length + 2 := by
    have := jcost_le_twice_length v
    omega
  have h := (parse_stringify_fuel (2 * (stringifyChars v).length + 2)).1 v []
    hwf hfuel (by decide)
  rw [List.append_nil] at h
  rw [h]
  rfl

/-- A tag starting with a backquote never fires on a backquote-free
text. -/
theorem stripTagAux_of_not_mem (tag : List Char)
    (htag : tag.head? = some backquote) :
    ∀ (fuel : Nat) (cs : List Char), backquote ∉ cs →
      stripTagAux tag fuel cs = cs := by
  intro fuel
  induction fuel with
  | zero => intro cs _; rfl
  | succ fuel ih =>
    intro cs hmem
    have hpre : ¬ (tag.isPrefixOf cs ∧ tag ≠ []) := by
      rintro ⟨hp, -⟩
      rcases List.isPrefixOf_iff_prefix.mp hp with ⟨t, ht⟩
      obtain ⟨c0, t0, htag0⟩ := List.exists_cons_of_ne_nil
        (show tag ≠ [] from by intro h; rw [h] at htag; simp at htag)
      rw [htag0] at htag
      simp only [List.head?_cons, Option.some.injEq] at htag
      apply hmem
      rw [← ht, htag0, htag]
      simp
    rw [stripTagAux.eq_def]
    simp only []
    rw [if_neg hpre]
    cases cs with
    | nil => rfl
    | cons c rest =>
      have hr : backquote ∉ rest := fun h => hmem (by simp [h])
      simp only []
      rw [ih rest hr]

/-- Scanning across a backquote-free prefix leaves it unchanged and
continues on the suffix with the remaining fuel. -/
theorem stripTagAux_clean_front (tag : List Char)
    (htag : tag.head? = some backquote) :
    ∀ (pre : List Char) (fuel : Nat) (suf : List Char), backquote ∉ pre →
      stripTagAux tag (pre.length + fuel) (pre ++ suf)
        = pre ++ stripTagAux tag fuel suf := by
  intro pre
  induction pre with
  | nil => intro fuel suf _; simp
  | cons c pre' ih =>
    intro fuel suf hmem
    have hpre : ¬ (tag.isPrefixOf (c :: (pre' ++ suf)) ∧ tag ≠ []) := by
      rintro ⟨hp, -⟩
      rcases List.isPrefixOf_iff_prefix.mp hp with ⟨t, ht⟩
      obtain ⟨c0, t0, htag0⟩ := List.exists_cons_of_ne_nil
        (show tag ≠ [] from by intro h; rw [h] at htag; simp at htag)
      rw [htag0] at htag
      simp only [List.head?_cons, Option.some.injEq] at htag
      apply hmem
      rw [htag0, htag] at ht
      have hcb : c = backquote := by
        have hh := congrArg List.head? ht
        simp at hh
        exact hh.symm
      simp [hcb]
    have hlen : (c :: pre').length + fuel = (pre'.length + fuel) + 1 := by
      simp [List.length_cons]
      omega
    rw [hlen, List.cons_append, stripTagAux.eq_def]
    simp only []
    rw [if_neg hpre]
    rw [ih fuel suf (fun h => hmem (by simp [h])), List.cons_append]

/-- `stripTag` fixes a backquote-free text. -/
theorem stripTag_of_not_mem (tag : List Char)
    (htag : tag.head? = some backquote) (cs : List Char)
    (hmem : backquote ∉ cs) : stripTag tag cs = cs :=
  stripTagAux_of_not_mem tag htag cs.length cs hmem

/-- `trimChars` fixes a text with a non-whitespace head and a closing
brace at the end. -/
theorem trimChars_fix (body : List Char) (c : Char) (t u : List Char)
    (hhead : body = c :: t) (hws : isJsWsCh c = false)
    (hrev : body.reverse = '}' :: u) : trimChars body = body := by
  rw [trimChars]
  conv_lhs => rw [hhead]
  simp only [List.dropWhile_cons, hws, Bool.false_eq_true, if_false]
  rw [← hhead, hrev]
  simp only [List.dropWhile_cons,
    show isJsWsCh '}' = false from by decide, Bool.false_eq_true, if_false]
  rw [← hrev, List.reverse_reverse]

/-- `trimChars` removes a single trailing newline from such a text. -/
theorem trimChars_newline (body : List Char) (c : Char) (t u : List Char)
    (hhead : body = c :: t) (hws : isJsWsCh c = false)
    (hrev : body.reverse = '}' :: u) :
    trimChars (body ++ ['\n']) = body := by
  rw [trimChars]
  conv_lhs => rw [hhead]
  simp only [List.cons_append, List.dropWhile_cons, hws, Bool.false_eq_true,
    if_false]
  rw [← List.cons_append, ← hhead]
  rw [show (body ++ ['\n']).reverse = '\n' :: body.reverse from by
    simp]
  simp only [List.dropWhile_cons,
    show isJsWsCh '\n' = true from by decide, if_true]
  rw [hrev]
  simp only [List.dropWhile_cons,
    show isJsWsCh '}' = false from by decide, Bool.false_eq_true, if_false]
  rw [← hrev, List.reverse_reverse]

/-- The two fence tags start with a backquote. -/
theorem fenceJson_head : fenceJson.head? = some backquote := rfl

/-- The bare fence tag starts with a backquote. -/
theorem fencePlain_head : fencePlain.head? = some backquote := rfl

/-- `cleanText` fixes a backquote-free text with a non-whitespace head
and a closing brace at the end. -/
theorem cleanText_plain (body : List Char) (c : Char) (t u : List Char)
    (hhead : body = c :: t) (hws : isJsWsCh c = false)
    (hrev : body.reverse = '}' :: u) (hmem : backquote ∉ body) :
    cleanText body = body := by
  rw [cleanText, stripTag_of_not_mem _ fenceJson_head _ hmem,
    stripTag_of_not_mem _ fencePlain_head _ hmem,
    trimChars_fix body c t u hhead hws hrev]

/-- `cleanText` unwraps a fenced backquote-free text with a
non-whitespace head and a closing brace at the end. -/
theorem cleanText_fenced (body : List Char) (c : Char) (t u : List Char)
    (hhead : body = c :: t) (hws : isJsWsCh c = false)
    (hrev : body.reverse = '}' :: u) (hmem : backquote ∉ body) :
    cleanText (wrapFenced body) = body := by
  have hstep1 : stripTag fenceJson (wrapFenced body)
      = body ++ '\n' :: fencePlain := by
    rw [stripTag, wrapFenced]
    have hlen : (fenceJson ++ '\n' :: (body ++ '\n' :: fencePlain)).length
        = (body.length + 11) + 1 := by
      simp only [List.length_append, List.length_cons, fenceJson, fencePlain,
        List.length_nil]
      omega
    rw [hlen, stripTagAux.eq_def]
    simp only []
    rw [if_pos ⟨List.isPrefixOf_iff_prefix.mpr ⟨_, rfl⟩, by decide⟩]
    rw [show (fenceJson ++ '\n' :: (body ++ '\n' :: fencePlain)).drop fenceJson.length
        = '\n' :: (body ++ '\n' :: fencePlain) from List.drop_left _ _]
    simp only [List.dropWhile_cons, show isJsWsCh '\n' = true from by decide,
      if_true]
    conv_lhs => rw [hhead]
    simp only [List.cons_append, List.dropWhile_cons, hws, Bool.false_eq_true,
      if_false]
    rw [← List.cons_append, ← hhead]
    rw [stripTagAux_clean_front fenceJson fenceJson_head body 11
      ('\n' :: fencePlain) hmem]
    rw [show stripTagAux fenceJson 11 ('\n' :: fencePlain) = '\n' :: fencePlain
      from by decide]
  have hstep2 : stripTag fencePlain (body ++ '\n' :: fencePlain)
      = body ++ ['\n'] := by
    rw [stripTag]
    have hlen : (body ++ '\n' :: fencePlain).length = body.length + 4 := by
      simp [fencePlain, List.length_append, List.length_cons]
    rw [hlen,
      stripTagAux_clean_front fencePlain fencePlain_head body 4
        ('\n' :: fencePlain) hmem]
    rw [show stripTagAux fencePlain 4 ('\n' :: fencePlain) = ['\n'] from by decide]
  rw [cleanText, hstep1, hstep2, trimChars_newline body c t u hhead hws hrev]

/-- The first index of the head character is zero. -/
theorem firstIdxOf_head (c : Char) (t : List Char) :
    firstIdxOf c (c :: t) = some 0 := by
  rw [firstIdxOf, if_pos rfl]

/-- The last index of a trailing character is the length of what
precedes it. -/
theorem lastIdxOf_append_last (c : Char) :
    ∀ l : List Char, lastIdxOf c (l ++ [c]) = some l.length := by
  intro l
  induction l with
  | nil => simp [lastIdxOf]
  | cons x l' ih =>
    rw [List.cons_append, lastIdxOf, ih]
    simp

/-- The brace matcher returns the whole text when it is a serialized
top-level object. -/
theorem jsonMatch_stringify_obj (fs : List (List Char × Json)) :
    jsonMatch (stringifyChars (.obj fs)) = some (stringifyChars (.obj fs)) := by
  show jsonMatch ('{' :: (stringifyFields fs ++ ['}'])) = _
  have h1 : firstIdxOf '{' ('{' :: (stringifyFields fs ++ ['}'])) = some 0 :=
    firstIdxOf_head _ _
  have h2 : lastIdxOf '}' ('{' :: (stringifyFields fs ++ ['}']))
      = some ((stringifyFields fs).length + 1) := by
    rw [show '{' :: (stringifyFields fs ++ ['}'])
        = ('{' :: stringifyFields fs) ++ ['}'] from by rw [List.cons_append],
      lastIdxOf_append_last '}' ('{' :: stringifyFields fs)]
    simp
  rw [jsonMatch, h1, h2]
  have hred : (match (some 0 : Option Nat),
      (some ((stringifyFields fs).length + 1) : Option Nat) with
    | some i, some j =>
      if i < j then
        some (List.take (j + 1 - i)
          (List.drop i ('{' :: (stringifyFields fs ++ ['}']))))
      else none
    | _, _ => none)
      = if 0 < (stringifyFields fs).length + 1 then
          some (List.take ((stringifyFields fs).length + 1 + 1 - 0)
            (List.drop 0 ('{' :: (stringifyFields fs ++ ['}']))))
        else none := rfl
  rw [hred, if_pos (by omega)]
  rw [List.drop_zero]
  have hamt : (stringifyFields fs).length + 1 + 1 - 0
      = ('{' :: (stringifyFields fs ++ ['}'])).length := by
    simp
  rw [hamt, List.take_length]
  rfl

/-- A value conforming to the moodboard output schema is an object. -/
theorem conforms_is_obj (j : Json) (h : moodboardConforms j = true) :
    ∃ fs, j = .obj fs := by
  cases j with
  | obj fs => exact ⟨fs, rfl⟩
  | null => simp [moodboardConforms, getStr?, objGet] at h
  | bool b => simp [moodboardConforms, getStr?, objGet] at h
  | num m e => simp [moodboardConforms, getStr?, objGet] at h
  | str s => simp [moodboardConforms, getStr?, objGet] at h
  | arr xs => simp [moodboardConforms, getStr?, objGet] at h

/-- A serialized object starts with the opening brace. -/
theorem stringify_obj_head (fs : List (List Char × Json)) :
    stringifyChars (.obj fs) = '{' :: (stringifyFields fs ++ ['}']) := rfl

/-- A serialized object ends with the closing brace. -/
theorem stringify_obj_rev (fs : List (List Char × Json)) :
    (stringifyChars (.obj fs)).reverse
      = '}' :: ((stringifyFields fs).reverse ++ ['{']) := by
  rw [stringify_obj_head]
  simp

/-- Normalization of a reply whose cleaned text is a serialized
well-formed object parses it back and fixes the dates. -/
theorem normalizeParse_of_clean (response : List Char) (ts : Timestamps)
    (fs : List (List Char × Json))
    (hclean : cleanText response = stringifyChars (.obj fs))
    (hwf : jsWF (.obj fs) = true) :
    normalizeParse response ts
      = some (fixDates (.obj fs) ts.currentDate ts.currentTimestamp) := by
  rw [normalizeParse, hclean, jsonMatch_stringify_obj]
  have hred : (match some (stringifyChars (.obj fs)) with
    | some span =>
      Option.map (fun j => fixDates j ts.currentDate ts.currentTimestamp)
        (jsonParse span)
    | none => none)
      = Option.map (fun j => fixDates j ts.currentDate ts.currentTimestamp)
        (jsonParse (stringifyChars (.obj fs))) := rfl
  rw [hred, jsonParse_stringify _ hwf]
  rfl

/-- C1 counterexample: serializing a conforming object and running it
through the handler's normalization step does NOT recover the original
object (its timestamps are overwritten with the caller-side ones), and no
`validated` marker exists anywhere in the returned record (the handler
always returns `raw = true`). -/
theorem C1_counterexample :
    moodboardConforms sampleMoodboard = true ∧
    (analyzeMoodboardReturn (stringifyChars sampleMoodboard) tsX
        ("m".toList) 0).output.parsed_data ≠ some sampleMoodboard ∧
    (analyzeMoodboardReturn (stringifyChars sampleMoodboard) tsX
        ("m".toList) 0).raw = true := by
  refine ⟨by decide, by decide, rfl⟩

/-- C1 amended: for every object conforming to the output schema (with
JavaScript-unique keys and no backquote in its serialization, which the
fence stripper would corrupt), serializing it — bare or wrapped in a
markdown ```json fence — and normalizing recovers the original object up
to the timestamp override: `parsed_data` is the object with `date` and
`analyzed_at` overwritten by the caller-side timestamps, the corrected
response is its re-serialization, the raw reply is preserved verbatim,
and the result is marked `raw = true` (no `validated` flag exists in the
code). -/
theorem C1_roundtrip_normalization (v : Json) (ts : Timestamps)
    (modelName : List Char) (durationMs : Nat) (input : List Char)
    (hconf : moodboardConforms v = true) (hwf : jsWF v = true)
    (hbq : backquote ∉ stringifyChars v)
    (hinput : input = stringifyChars v ∨ input = wrapFenced (stringifyChars v)) :
    (analyzeMoodboardReturn input ts modelName durationMs).output.parsed_data
      = some (fixDates v ts.currentDate ts.currentTimestamp) ∧
    (analyzeMoodboardReturn input ts modelName durationMs).output.corrected_response
      = stringifyChars (fixDates v ts.currentDate ts.currentTimestamp) ∧
    (analyzeMoodboardReturn input ts modelName durationMs).output.raw_response
      = input ∧
    (analyzeMoodboardReturn input ts modelName durationMs).raw = true := by
  obtain ⟨fs, rfl⟩ := conforms_is_obj v hconf
  have hclean : cleanText input = stringifyChars (.obj fs) := by
    rcases hinput with h | h <;> subst h
    · exact cleanText_plain _ '{' _ _ (stringify_obj_head fs) (by decide)
        (stringify_obj_rev fs) hbq
    · exact cleanText_fenced _ '{' _ _ (stringify_obj_head fs) (by decide)
        (stringify_obj_rev fs) hbq
  have hnp := normalizeParse_of_clean input ts fs hclean hwf
  refine ⟨?_, ?_, rfl, rfl⟩
  · simp [analyzeMoodboardReturn, hnp]
  · simp [analyzeMoodboardReturn, hnp]

/-- C1 amended witness: the concrete conforming object, serialized bare,
normalizes to its date-corrected form. -/
theorem C1_roundtrip_normalization_witness :
    (analyzeMoodboardReturn (stringifyChars sampleMoodboard) tsX
        ("m".toList) 0).output.parsed_data
      = some (fixDates sampleMoodboard tsX.currentDate tsX.currentTimestamp) ∧
    (analyzeMoodboardReturn (stringifyChars sampleMoodboard) tsX
        ("m".toList) 0).output.corrected_response
      = stringifyChars (fixDates sampleMoodboard tsX.currentDate tsX.currentTimestamp) ∧
    (analyzeMoodboardReturn (stringifyChars sampleMoodboard) tsX
        ("m".toList) 0).output.raw_response
      = stringifyChars sampleMoodboard ∧
    (analyzeMoodboardReturn (stringifyChars sampleMoodboard) tsX
        ("m".toList) 0).raw = true :=
  C1_roundtrip_normalization sampleMoodboard tsX ("m".toList) 0
    (stringifyChars sampleMoodboard) (by decide) (by decide) (by decide)
    (Or.inl rfl)

theorem firstIdxOf_eq_some (c : Char) :
    ∀ (cs : List Char) (i : Nat), firstIdxOf c cs = some i →
      cs[i]? = some c ∧ ∀ k, k < i → cs[k]? ≠ some c := by
  intro cs
  induction cs with
  | nil => intro i h; simp [firstIdxOf] at h
  | cons x xs ih =>
    intro i h
    by_cases hx : x = c
    · rw [firstIdxOf, if_pos hx] at h
      cases h
      subst hx
      exact ⟨by simp, by omega⟩
    · rw [firstIdxOf, if_neg hx] at h
      rcases Option.map_eq_some'.mp h with ⟨i', hi', rfl⟩
      rcases ih i' hi' with ⟨h1, h2⟩
      refine ⟨by simpa using h1, ?_⟩
      intro k hk
      cases k with
      | zero => simpa using hx
      | succ k' => simpa using h2 k' (by omega)

theorem firstIdxOf_isSome (c : Char) :
    ∀ (cs : List Char) (i : Nat), cs[i]? = some c → (firstIdxOf c cs).isSome := by
  intro cs
  induction cs with
  | nil => intro i h; simp at h
  | cons x xs ih =>
    intro i h
    by_cases hx : x = c
    · simp [firstIdxOf, hx]
    · rw [firstIdxOf, if_neg hx]
      cases i with
      | zero => simp at h; exact absurd h hx
      | succ i' =>
        simp only [List.getElem?_cons_succ] at h
        simpa using ih i' h

theorem lastIdxOf_eq_none (c : Char) :
    ∀ (cs : List Char), lastIdxOf c cs = none → ∀ k : Nat, cs[k]? ≠ some c := by
  intro cs
  induction cs with
  | nil => intro _ k; simp
  | cons x xs ih =>
    intro h k
    rw [lastIdxOf] at h
    cases hx : lastIdxOf c xs with
    | some j => rw [hx] at h; simp at h
    | none =>
      rw [hx] at h
      by_cases hxc : x = c
      · rw [if_pos hxc] at h; simp at h
      · cases k with
        | zero => simpa using hxc
        | succ k' => simpa using ih hx k'

theorem lastIdxOf_eq_some (c : Char) :
    ∀ (cs : List Char) (j : Nat), lastIdxOf c cs = some j →
      cs[j]? = some c ∧ ∀ k, j < k → cs[k]? ≠ some c := by
  intro cs
  induction cs with
  | nil => intro j h; simp [lastIdxOf] at h
  | cons x xs ih =>
    intro j h
    rw [lastIdxOf] at h
    cases hx : lastIdxOf c xs with
    | some j' =>
      rw [hx] at h
      cases h
      rcases ih j' hx with ⟨h1, h2⟩
      refine ⟨by simpa using h1, ?_⟩
      intro k hk
      cases k with
      | zero => omega
      | succ k' => simpa using h2 k' (by omega)
    | none =>
      rw [hx] at h
      by_cases hxc : x = c
      · rw [if_pos hxc] at h
        cases h
        subst hxc
        refine ⟨by simp, ?_⟩
        intro k hk
        cases k with
        | zero => omega
        | succ k' => simpa using lastIdxOf_eq_none x xs hx k'
      · rw [if_neg hxc] at h; simp at h

theorem lastIdxOf_isSome (c : Char) :
    ∀ (cs : List Char) (j : Nat), cs[j]? = some c → (lastIdxOf c cs).isSome := by
  intro cs
  induction cs with
  | nil => intro j h; simp at h
  | cons x xs ih =>
    intro j h
    rw [lastIdxOf]
    cases hx : lastIdxOf c xs with
    | some j' => simp
    | none =>
      cases j with
      | zero =>
        simp only [List.getElem?_cons_zero, Option.some.injEq] at h
        simp [h]
      | succ j' =>
        simp only [List.getElem?_cons_succ] at h
        have := ih j' h
        rw [hx] at this
        simp at this

/-- C6: for every cleaned text containing an opening brace followed
somewhere later by a closing brace, the brace-matching step selects
exactly the span from the first opening brace to the last closing brace,
and normalization degrades (no parsed data) when no valid JSON parses from
the selected span. -/
theorem C6_brace_span_policy :
    (∀ (cs : List Char) (i j : Nat), i < j → cs[i]? = some '{' → cs[j]? = some '}' →
      ∃ i0 j0, firstIdxOf '{' cs = some i0 ∧ lastIdxOf '}' cs = some j0 ∧
        cs[i0]? = some '{' ∧ (∀ k, k < i0 → cs[k]? ≠ some '{') ∧
        cs[j0]? = some '}' ∧ (∀ k, j0 < k → cs[k]? ≠ some '}') ∧
        jsonMatch cs = some ((cs.drop i0).take (j0 + 1 - i0))) ∧
    (∀ (response : List Char) (ts : Timestamps),
      (∀ span, jsonMatch (cleanText response) = some span → jsonParse span = none) →
      normalizeParse response ts = none) := by
  constructor
  · intro cs i j hij hi hj
    have h1 := firstIdxOf_isSome '{' cs i hi
    have h2 := lastIdxOf_isSome '}' cs j hj
    rcases Option.isSome_iff_exists.mp h1 with ⟨i0, hi0⟩
    rcases Option.isSome_iff_exists.mp h2 with ⟨j0, hj0⟩
    rcases firstIdxOf_eq_some '{' cs i0 hi0 with ⟨hfi, hfmin⟩
    rcases lastIdxOf_eq_some '}' cs j0 hj0 with ⟨hlj, hlmax⟩
    have hi0le : i0 ≤ i := by
      by_contra hlt
      exact hfmin i (by omega) hi
    have hj0ge : j ≤ j0 := by
      by_contra hlt
      exact hlmax j (by omega) hj
    refine ⟨i0, j0, hi0, hj0, hfi, hfmin, hlj, hlmax, ?_⟩
    simp only [jsonMatch, hi0, hj0]
    rw [if_pos (show i0 < j0 by omega)]
  · intro response ts h
    cases hm : jsonMatch (cleanText response) with
    | none => simp [normalizeParse, hm]
    | some span => simp [normalizeParse, hm, h span hm]

/-- C6 witness: in `a{b}c}d` the selected span runs from index 1 to the
last closing brace at index 5, and a response whose bracketed span is not
valid JSON yields no parsed data. -/
theorem C6_witness :
    (∃ i0 j0, firstIdxOf '{' ("a\x7bb\x7dc\x7dd".toList) = some i0 ∧
      lastIdxOf '}' ("a\x7bb\x7dc\x7dd".toList) = some j0 ∧
      ("a\x7bb\x7dc\x7dd".toList)[i0]? = some '{' ∧
      (∀ k, k < i0 → ("a\x7bb\x7dc\x7dd".toList)[k]? ≠ some '{') ∧
      ("a\x7bb\x7dc\x7dd".toList)[j0]? = some '}' ∧
      (∀ k, j0 < k → ("a\x7bb\x7dc\x7dd".toList)[k]? ≠ some '}') ∧
      jsonMatch ("a\x7bb\x7dc\x7dd".toList) =
        some ((("a\x7bb\x7dc\x7dd".toList).drop i0).take (j0 + 1 - i0))) ∧
    normalizeParse ("a\x7bb\x7dc\x7dd".toList) ⟨"D".toList, "T".toList⟩ = none := by
  constructor
  · exact C6_brace_span_policy.1 _ 1 3 (by omega) (by decide) (by decide)
  · refine C6_brace_span_policy.2 _ _ ?_
    intro span h
    have he : jsonMatch (cleanText ("a\x7bb\x7dc\x7dd".toList)) = some ("\x7bb\x7dc\x7d".toList) := by decide
    rw [he] at h
    cases h
    decide

/-- C4: the normalization step is a total function: every string input
yields a well-formed return record whose `raw_response` is the input, and
on parse failure the preserved fallback (`corrected_response`) is the input
verbatim and `parsed_data` is absent. -/
theorem C4_degraded_totality (response : List Char) (ts : Timestamps)
    (modelName : List Char) (durationMs : Nat) :
    (analyzeMoodboardReturn response ts modelName durationMs).output.raw_response
        = response ∧
    (normalizeParse response ts = none →
      (analyzeMoodboardReturn response ts modelName durationMs).output.corrected_response
          = response ∧
      (analyzeMoodboardReturn response ts modelName durationMs).output.parsed_data
          = none) := by
  refine ⟨rfl, fun h => ⟨?_, ?_⟩⟩ <;> simp [analyzeMoodboardReturn, h]

/-- C4 witness: the spec's scenario, the non-JSON prose reply
`I cannot help with that.`. -/
theorem C4_witness :
    normalizeParse ("I cannot help with that.".toList) ⟨"D".toList, "T".toList⟩ = none ∧
    (analyzeMoodboardReturn ("I cannot help with that.".toList)
        ⟨"D".toList, "T".toList⟩ ("m".toList) 0).output.raw_response
      = "I cannot help with that.".toList ∧
    (analyzeMoodboardReturn ("I cannot help with that.".toList)
        ⟨"D".toList, "T".toList⟩ ("m".toList) 0).output.corrected_response
      = "I cannot help with that.".toList ∧
    (analyzeMoodboardReturn ("I cannot help with that.".toList)
        ⟨"D".toList, "T".toList⟩ ("m".toList) 0).output.parsed_data = none := by
  have h : normalizeParse ("I cannot help with that.".toList) ⟨"D".toList, "T".toList⟩ = none := by
    decide
  have h2 := C4_degraded_totality ("I cannot help with that.".toList)
    ⟨"D".toList, "T".toList⟩ ("m".toList) 0
  exact ⟨h, h2.1, (h2.2 h).1, (h2.2 h).2⟩

/-- C9: the normalization step is a pure function of the raw reply, the
caller-side timestamps, the model name and the duration: equal inputs give
bit-identical outputs. -/
theorem C9_normalize_deterministic (r₁ r₂ : List Char) (ts₁ ts₂ : Timestamps)
    (m₁ m₂ : List Char) (d₁ d₂ : Nat) (hr : r₁ = r₂) (hts : ts₁ = ts₂)
    (hm : m₁ = m₂) (hd : d₁ = d₂) :
    analyzeMoodboardReturn r₁ ts₁ m₁ d₁ = analyzeMoodboardReturn r₂ ts₂ m₂ d₂ := by
  subst hr; subst hts; subst hm; subst hd; rfl

/-- C9 witness: two runs on one concrete reply and timestamp pair. -/
theorem C9_witness :
    analyzeMoodboardReturn ("\x7b\"a\":1\x7d".toList) ⟨"D".toList, "T".toList⟩ ("m".toList) 7
      = analyzeMoodboardReturn ("\x7b\"a\":1\x7d".toList) ⟨"D".toList, "T".toList⟩ ("m".toList) 7 :=
  C9_normalize_deterministic _ _ _ _ _ _ _ _ rfl rfl rfl rfl

/-- C10: whenever the handler returns without throwing, the returned value
has `raw = true`, `raw_response` equal to the model's reply verbatim,
`model_used` equal to the configured model name, and `date`/`analyzed_at`
equal to the caller-side wall-clock values computed before the inference
call — whether or not the reply parsed. -/
theorem C10_return_invariants (coins : Except (List Char) (List Coin))
    (inference : Except (List Char) (List Char)) (ts : Timestamps)
    (modelName : List Char) (durationMs : Nat) (ret : HandlerReturn)
    (h : analyzeMoodboardHandler coins inference ts modelName durationMs = .ok ret) :
    ret.raw = true ∧
    (∃ response, inference = .ok response ∧ ret.output.raw_response = response) ∧
    ret.output.model_used = modelName ∧
    ret.output.date = ts.currentDate ∧
    ret.output.analyzed_at = ts.currentTimestamp := by
  cases coins with
  | error e => simp [analyzeMoodboardHandler] at h
  | ok cs =>
    by_cases hcs : cs.isEmpty
    · simp [analyzeMoodboardHandler, hcs] at h
    · cases inference with
      | error e => simp [analyzeMoodboardHandler, hcs] at h
      | ok response =>
        simp only [analyzeMoodboardHandler, hcs, if_false, Bool.false_eq_true,
          Except.ok.injEq] at h
        subst h
        exact ⟨rfl, ⟨response, rfl, rfl⟩, rfl, rfl, rfl⟩

/-- C10 witness: a concrete successful invocation. -/
theorem C10_witness :
    (analyzeMoodboardReturn ("hi".toList) ⟨"D".toList, "T".toList⟩ ("m".toList) 3).raw = true ∧
    (∃ response, (Except.ok ("hi".toList) : Except (List Char) (List Char)) = .ok response ∧
      (analyzeMoodboardReturn ("hi".toList) ⟨"D".toList, "T".toList⟩ ("m".toList) 3).output.raw_response = response) ∧
    (analyzeMoodboardReturn ("hi".toList) ⟨"D".toList, "T".toList⟩ ("m".toList) 3).output.model_used = "m".toList ∧
    (analyzeMoodboardReturn ("hi".toList) ⟨"D".toList, "T".toList⟩ ("m".toList) 3).output.date
      = (Timestamps.mk ("D".toList) ("T".toList)).currentDate ∧
    (analyzeMoodboardReturn ("hi".toList) ⟨"D".toList, "T".toList⟩ ("m".toList) 3).output.analyzed_at
      = (Timestamps.mk ("D".toList) ("T".toList)).currentTimestamp :=
  C10_return_invariants (.ok [⟨"b".toList⟩]) (.ok ("hi".toList))
    ⟨"D".toList, "T".toList⟩ ("m".toList) 3
    (analyzeMoodboardReturn ("hi".toList) ⟨"D".toList, "T".toList⟩ ("m".toList) 3) (by rfl)

/-- C7: the inference call's timeout ceiling is the fixed 60000
milliseconds, and a timed-out call ends in the wrapped transport-level
error — never in a reply (so no partially-normalized result can arise from
it). -/
theorem C7_inference_timeout (apiKey modelName : List Char) (h : apiKey ≠ []) :
    jatevoTimeoutMs = 60000 ∧
    callGLM46Model apiKey modelName .timedOut
      = .error (failedCallMsg modelName abortedMsg) ∧
    ∀ s, callGLM46Model apiKey modelName .timedOut ≠ .ok s := by
  refine ⟨rfl, ?_, ?_⟩ <;> simp [callGLM46Model, List.isEmpty_iff, h]

/-- C7 witness: a concrete key and model name. -/
theorem C7_witness :
    jatevoTimeoutMs = 60000 ∧
    callGLM46Model ("k".toList) ("m".toList) .timedOut
      = .error (failedCallMsg ("m".toList) abortedMsg) ∧
    ∀ s, callGLM46Model ("k".toList) ("m".toList) .timedOut ≠ .ok s :=
  C7_inference_timeout ("k".toList) ("m".toList) (by decide)

/-- C8: the `limit` item count is accepted exactly when it lies in
`[1, 50]` (any number in range passes through unchanged, everything out of
range is rejected), an absent limit defaults to 10, and a request whose
input fails validation is answered without any paid upstream call. -/
theorem C8_limit_validation :
    validateLimit none = some (.num 10 0) ∧
    (∀ m e, (validateLimit (some (.num m e))).isSome ↔
      (1 : ℚ) ≤ numVal m e ∧ numVal m e ≤ 50) ∧
    (∀ m e, (1 : ℚ) ≤ numVal m e ∧ numVal m e ≤ 50 →
      validateLimit (some (.num m e)) = some (.num m e)) ∧
    (∀ input coins inference ts modelName durationMs,
      validateInput input = none →
      invokeEntrypoint input coins inference ts modelName durationMs
        = (.error ("Invalid input".toList), [])) := by
  refine ⟨rfl, ?_, ?_, ?_⟩
  · intro m e
    have hiff := numInRange_iff 1 50 m e
    push_cast at hiff
    rw [← hiff]
    constructor
    · intro h
      by_contra hn
      simp [validateLimit, hn] at h
    · intro h
      simp [validateLimit, h]
  · intro m e h
    have hiff := numInRange_iff 1 50 m e
    push_cast at hiff
    rw [← hiff] at h
    simp [validateLimit, h]
  · intro input coins inference ts modelName durationMs h
    simp [invokeEntrypoint, h]

/-- C8 witness: limit 51 is rejected before any paid work; limit 10.5 is
accepted; an absent limit defaults to 10. -/
theorem C8_witness :
    validateLimit none = some (.num 10 0) ∧
    validateLimit (some (.num 105 1)) = some (.num 105 1) ∧
    invokeEntrypoint (.obj [("limit".toList, .num 51 0)])
      (.ok []) (.ok []) ⟨"D".toList, "T".toList⟩ ("m".toList) 0
      = (.error ("Invalid input".toList), []) := by
  refine ⟨C8_limit_validation.1, ?_, ?_⟩
  · refine C8_limit_validation.2.2.1 105 1 ?_
    have hiff := numInRange_iff 1 50 105 1
    push_cast at hiff
    rw [← hiff]
    decide
  · exact C8_limit_validation.2.2.2 _ _ _ _ _ _ (by decide)

/-- C2 counterexample: a run with `successRate = 1.0` (all five trials
succeed at the transport level) on which the harness nevertheless exits
non-zero, because the responses are raw/unvalidated. -/
theorem C2_counterexample :
    successCount (runHarness rawRunOutcomes) = 5 ∧
    successRate (runHarness rawRunOutcomes) = 1 ∧
    validatedCount (runHarness rawRunOutcomes) = 0 ∧
    harnessExitCode (runHarness rawRunOutcomes) = 1 := by
  refine ⟨by decide, ?_, by decide, by decide⟩
  norm_num [successRate, show successCount (runHarness rawRunOutcomes) = 5 from by decide]

/-- C2 amended: the harness exits zero exactly when all 5 trials succeed
at the transport level AND all 5 count as validated; in particular it
exits non-zero whenever `successRate < 1.0`, but transport-level success of
every trial is not sufficient. -/
theorem C2_exit_condition (rs : List TrialResult) (h : rs.length = 5) :
    (harnessExitCode rs = 0 ↔ successCount rs = 5 ∧ validatedCount rs = 5) ∧
    (successRate rs < 1 → harnessExitCode rs = 1) := by
  constructor
  · constructor
    · intro h0
      by_contra hn
      rw [harnessExitCode, if_neg hn] at h0
      split at h0 <;> omega
    · intro hb
      rw [harnessExitCode, if_pos hb]
  · intro hr
    have hcount : successCount rs < 5 := by
      by_contra hge
      have : successCount rs ≤ rs.length := List.length_filter_le _ _
      have h5 : successCount rs = 5 := by omega
      rw [successRate, h5] at hr
      norm_num at hr
    rw [harnessExitCode, if_neg (by omega)]
    split <;> rfl

/-- C2 amended witness: a concrete 5-trial run with one transport failure
exits 1, and its exit-zero condition is equivalent to full success and
validation. -/
theorem C2_exit_condition_witness :
    (harnessExitCode mixedTrialResults = 0 ↔
      successCount mixedTrialResults = 5 ∧ validatedCount mixedTrialResults = 5) ∧
    (successRate mixedTrialResults < 1 → harnessExitCode mixedTrialResults = 1) :=
  C2_exit_condition mixedTrialResults (by decide)


/-- C5 counterexample: on `mixedTrialResults` the reported mean is
`450/4 = 112.5`, not the arithmetic mean `100` over successful trials: the
numerator includes the 50 ms of the failed trial. -/
theorem C5_counterexample :
    0 < successCount mixedTrialResults ∧
    avgResponseTime mixedTrialResults = 450 / 4 ∧
    specMeanLatency mixedTrialResults = 100 ∧
    avgResponseTime mixedTrialResults ≠ specMeanLatency mixedTrialResults := by
  have h1 : positiveTimeSum mixedTrialResults = 450 := by decide
  have h2 : successCount mixedTrialResults = 4 := by decide
  have h3 : ((mixedTrialResults.filter (fun r => r.success)).map
      (fun r => r.responseTime)).sum = 400 := by decide
  refine ⟨by decide, ?_, ?_, ?_⟩ <;>
    norm_num [avgResponseTime, specMeanLatency, h1, h2, h3]

/-- C5 amended: the reported mean equals the sum of latencies over ALL
trials with positive recorded latency (failed ones included) divided by
the number of successful trials; when every trial succeeds with positive
latency this coincides with the claimed arithmetic mean over successful
trials, and the success/validated rates are the respective counts over the
hard-coded total of 5. -/
theorem C5_mean_latency (rs : List TrialResult)
    (hall : ∀ r ∈ rs, r.success = true ∧ 0 < r.responseTime) :
    avgResponseTime rs = (positiveTimeSum rs : ℚ) / (successCount rs : ℚ) ∧
    successCount rs = rs.length ∧
    avgResponseTime rs
      = (((rs.map (fun r => r.responseTime)).sum : Nat) : ℚ) / (rs.length : ℚ) ∧
    avgResponseTime rs = specMeanLatency rs ∧
    successRate rs = (successCount rs : ℚ) / 5 ∧
    validatedRate rs = (validatedCount rs : ℚ) / 5 := by
  have hfs : rs.filter (fun r => r.success) = rs :=
    List.filter_eq_self.mpr (fun r hr => by simp [(hall r hr).1])
  have hft : rs.filter (fun r => 0 < r.responseTime) = rs :=
    List.filter_eq_self.mpr (fun r hr => by simp [(hall r hr).2])
  have hsc : successCount rs = rs.length := by rw [successCount, hfs]
  have hpt : positiveTimeSum rs = (rs.map (fun r => r.responseTime)).sum := by
    rw [positiveTimeSum, hft]
  refine ⟨rfl, hsc, ?_, ?_, rfl, rfl⟩
  · rw [avgResponseTime, hpt, hsc]
  · rw [avgResponseTime, specMeanLatency, hpt, hfs, successCount, hfs]

/-- C5 amended witness: an all-success run of latencies 100 and 200 has
mean `150`. -/
theorem C5_mean_latency_witness :
    avgResponseTime
        [⟨1, true, 200, some false, some true, 100, none⟩,
         ⟨2, true, 200, some false, some true, 200, none⟩]
      = specMeanLatency
        [⟨1, true, 200, some false, some true, 100, none⟩,
         ⟨2, true, 200, some false, some true, 200, none⟩] ∧
    avgResponseTime
        [⟨1, true, 200, some false, some true, 100, none⟩,
         ⟨2, true, 200, some false, some true, 200, none⟩] = 150 := by
  have h := C5_mean_latency
    [⟨1, true, 200, some false, some true, 100, none⟩,
     ⟨2, true, 200, some false, some true, 200, none⟩] (by decide)
  refine ⟨h.2.2.2.1, ?_⟩
  rw [h.2.2.1]
  norm_num [List.map, List.sum]

/-- In the replace-in-place image of a field list, the first hit for the
replaced key carries the new value. -/
theorem find?_replace_self (k : List Char) (v : Json) :
    ∀ fs : List (List Char × Json), fs.any (fun p => p.1 = k) →
      (fs.map (fun p => if p.1 = k then (k, v) else p)).find?
          (fun p => p.1 = k) = some (k, v) := by
  intro fs
  induction fs with
  | nil => intro hmem; simp at hmem
  | cons q qs ih =>
    intro hmem
    by_cases hq : q.1 = k
    · simp [List.find?, hq]
    · have hmem' : qs.any (fun p => p.1 = k) := by
        rw [List.any_cons] at hmem
        rcases (Bool.or_eq_true _ _).mp hmem with hh | hh
        · exact absurd (of_decide_eq_true hh) hq
        · exact hh
      simp only [List.map_cons, if_neg hq, List.find?]
      rw [show (decide (q.1 = k)) = false from by simp [hq]]
      exact ih hmem'

/-- Appending a field for a fresh key puts it where `find?` hits it last. -/
theorem find?_append_self (k : List Char) (v : Json) :
    ∀ fs : List (List Char × Json), (∀ p ∈ fs, ¬ p.1 = k) →
      (fs ++ [(k, v)]).find? (fun p => p.1 = k) = some (k, v) := by
  intro fs
  induction fs with
  | nil => simp [List.find?]
  | cons q qs ih =>
    intro hfresh
    have hq : ¬ q.1 = k := hfresh q (by simp)
    simp only [List.cons_append, List.find?]
    rw [show (decide (q.1 = k)) = false from by simp [hq]]
    exact ih (fun p hp => hfresh p (by simp [hp]))

/-- Replacing fields of one key leaves `find?` for a different key
unchanged. -/
theorem find?_replace_ne (k k' : List Char) (v : Json) (h : k ≠ k') :
    ∀ fs : List (List Char × Json),
      (fs.map (fun p => if p.1 = k then (k, v) else p)).find?
          (fun p => p.1 = k')
        = fs.find? (fun p => p.1 = k') := by
  intro fs
  induction fs with
  | nil => simp
  | cons q qs ih =>
    by_cases hq : q.1 = k
    · have hq' : ¬ q.1 = k' := fun hc => h (hq ▸ hc ▸ rfl)
      simp only [List.map_cons, if_pos hq, List.find?]
      rw [show (decide ((k, v).1 = k')) = false from by simp [h],
        show (decide (q.1 = k')) = false from by simp [hq']]
      exact ih
    · simp only [List.map_cons, if_neg hq, List.find?]
      cases hd : decide (q.1 = k') with
      | true => rfl
      | false => exact ih

/-- Appending a field of one key leaves `find?` for a different key
unchanged. -/
theorem find?_append_ne (k k' : List Char) (v : Json) (h : k ≠ k') :
    ∀ fs : List (List Char × Json),
      (fs ++ [(k, v)]).find? (fun p => p.1 = k')
        = fs.find? (fun p => p.1 = k') := by
  intro fs
  induction fs with
  | nil => simp [List.find?, show (decide (k = k')) = false from by simp [h]]
  | cons q qs ih =>
    simp only [List.cons_append, List.find?]
    cases hd : decide (q.1 = k') with
    | true => rfl
    | false => exact ih

/-- Reading back the key just written by `objInsert` yields the written
value. -/
theorem objGet_objInsert_self (fs : List (List Char × Json)) (k : List Char)
    (v : Json) : objGet (.obj (objInsert fs k v)) k = some v := by
  rw [objInsert]
  by_cases hmem : fs.any (fun p => p.1 = k)
  · rw [if_pos hmem, objGet, find?_replace_self k v fs hmem]
    rfl
  · rw [if_neg hmem, objGet]
    simp only [List.any_eq_true, decide_eq_true_eq] at hmem
    push_neg at hmem
    rw [find?_append_self k v fs hmem]
    rfl

/-- `objInsert` at one key does not change reads of another key. -/
theorem objGet_objInsert_ne (fs : List (List Char × Json)) (k k' : List Char)
    (v : Json) (h : k ≠ k') :
    objGet (.obj (objInsert fs k v)) k' = objGet (.obj fs) k' := by
  rw [objInsert]
  by_cases hmem : fs.any (fun p => p.1 = k)
  · rw [if_pos hmem, objGet, objGet, find?_replace_ne k k' v h fs]
  · rw [if_neg hmem, objGet, objGet, find?_append_ne k k' v h fs]

/-- `fixDates` on an object: the overwritten fields read back as the
caller-side timestamps whenever the model-supplied values were truthy. -/
theorem objGet_fixDates (fs : List (List Char × Json)) (d t : List Char) :
    (jsTruthy (objGet (.obj fs) dateKey) = true →
      objGet (fixDates (.obj fs) d t) dateKey = some (.str d)) ∧
    (jsTruthy (objGet (.obj fs) analyzedAtKey) = true →
      objGet (fixDates (.obj fs) d t) analyzedAtKey = some (.str t)) := by
  have hkeys : dateKey ≠ analyzedAtKey := by decide
  simp only [fixDates]
  constructor
  · intro htr
    rw [if_pos htr]
    by_cases h2 : jsTruthy (objGet (.obj (objInsert fs dateKey (.str d)))
        analyzedAtKey) = true
    · rw [if_pos h2, objGet_objInsert_ne _ _ _ _ hkeys.symm]
      exact objGet_objInsert_self _ _ _
    · rw [if_neg h2]
      exact objGet_objInsert_self _ _ _
  · intro htr
    by_cases h1 : jsTruthy (objGet (.obj fs) dateKey) = true
    · rw [if_pos h1]
      have htr' : jsTruthy (objGet (.obj (objInsert fs dateKey (.str d)))
          analyzedAtKey) = true := by
        rw [objGet_objInsert_ne _ _ _ _ hkeys]
        exact htr
      rw [if_pos htr']
      exact objGet_objInsert_self _ _ _
    · rw [if_neg h1, if_pos htr]
      exact objGet_objInsert_self _ _ _

/-- C3 counterexample: on a reply whose `date`/`analyzed_at` fields hold
the empty string, the normalized parsed object keeps the model-supplied
empty strings — neither field equals the caller-side timestamp, because the
source only overwrites truthy fields. -/
theorem C3_counterexample :
    normalizeParse emptyDatesBody tsX
      = some (.obj [(dateKey, .str []), (analyzedAtKey, .str [])]) ∧
    objGet (.obj [(dateKey, .str []), (analyzedAtKey, .str [])]) dateKey
      ≠ some (.str tsX.currentDate) ∧
    objGet (.obj [(dateKey, .str []), (analyzedAtKey, .str [])]) analyzedAtKey
      ≠ some (.str tsX.currentTimestamp) := by
  refine ⟨by decide, by decide, by decide⟩

/-- C3 amended: on every reply that parses to a JSON object, the
normalization step yields exactly `fixDates` of that object, and the
`date` / `analyzed_at` fields of the result equal the caller-side
timestamps whenever the model-supplied values are truthy (non-empty,
non-zero, non-null); falsy model-supplied values are left in place. -/
theorem C3_timestamp_override (response : List Char) (ts : Timestamps)
    (span : List Char) (j : Json)
    (hspan : jsonMatch (cleanText response) = some span)
    (hj : jsonParse span = some j) :
    normalizeParse response ts
      = some (fixDates j ts.currentDate ts.currentTimestamp) ∧
    (jsTruthy (objGet j dateKey) = true →
      objGet (fixDates j ts.currentDate ts.currentTimestamp) dateKey
        = some (.str ts.currentDate)) ∧
    (jsTruthy (objGet j analyzedAtKey) = true →
      objGet (fixDates j ts.currentDate ts.currentTimestamp) analyzedAtKey
        = some (.str ts.currentTimestamp)) := by
  refine ⟨by simp [normalizeParse, hspan, hj], ?_, ?_⟩
  · cases j with
    | obj fs => exact (objGet_fixDates fs _ _).1
    | null => intro htr; simp [objGet, jsTruthy] at htr
    | bool b => intro htr; simp [objGet, jsTruthy] at htr
    | num m e => intro htr; simp [objGet, jsTruthy] at htr
    | str s => intro htr; simp [objGet, jsTruthy] at htr
    | arr xs => intro htr; simp [objGet, jsTruthy] at htr
  · cases j with
    | obj fs => exact (objGet_fixDates fs _ _).2
    | null => intro htr; simp [objGet, jsTruthy] at htr
    | bool b => intro htr; simp [objGet, jsTruthy] at htr
    | num m e => intro htr; simp [objGet, jsTruthy] at htr
    | str s => intro htr; simp [objGet, jsTruthy] at htr
    | arr xs => intro htr; simp [objGet, jsTruthy] at htr

/-- C3 amended witness: a reply with truthy model-supplied dates has both
fields overwritten with the caller-side timestamps. -/
theorem C3_timestamp_override_witness :
    normalizeParse ("\x7b\"date\":\"x\",\"analyzed_at\":\"y\"\x7d".toList) tsX
      = some (fixDates (.obj [(dateKey, .str ("x".toList)),
          (analyzedAtKey, .str ("y".toList))]) tsX.currentDate tsX.currentTimestamp) ∧
    (jsTruthy (objGet (.obj [(dateKey, .str ("x".toList)),
        (analyzedAtKey, .str ("y".toList))]) dateKey) = true →
      objGet (fixDates (.obj [(dateKey, .str ("x".toList)),
          (analyzedAtKey, .str ("y".toList))]) tsX.currentDate tsX.currentTimestamp) dateKey
        = some (.str tsX.currentDate)) ∧
    (jsTruthy (objGet (.obj [(dateKey, .str ("x".toList)),
        (analyzedAtKey, .str ("y".toList))]) analyzedAtKey) = true →
      objGet (fixDates (.obj [(dateKey, .str ("x".toList)),
          (analyzedAtKey, .str ("y".toList))]) tsX.currentDate tsX.currentTimestamp) analyzedAtKey
        = some (.str tsX.currentTimestamp)) :=
  C3_timestamp_override ("\x7b\"date\":\"x\",\"analyzed_at\":\"y\"\x7d".toList) tsX
    ("\x7b\"date\":\"x\",\"analyzed_at\":\"y\"\x7d".toList)
    (.obj [(dateKey, .str ("x".toList)), (analyzedAtKey, .str ("y".toList))])
    (by decide) (by decide)

end Moodboard
